import Mathlib

/-!
# dft/dftw-dft.c : a dftw problem as a dft plus a multiplication by twiddle factors

A shallow embedding of `dft/dftw-dft.c`.

Conventions of the embedding.

* C `int` values are integers (`Int`).  Signed overflow is undefined in C; the
  index arithmetic of the kernels and of the table builders is carried out on
  unbounded integers, which is what every execution free of overflow computes.
  The one product the specification qualifies with "does not overflow", the
  size test `p->m * p->r` of `applicable`, is taken modulo `2^32` (`imul`).
* `unsigned jk = j * k` is the product of two loop counters that are at least
  1, a natural number (`(j * k).toNat`); `&` and `>>` on it are the bit
  operations of `Nat`.
* `R` and `E` values live in an arbitrary type `α` carrying `+`, `-`, `*`.
  The kernel theorems hold for every such type; the instances use the
  integers, and the statement about cosines and sines uses the reals.
* Operation counts (`double` in C) live in an arbitrary ring `β`.
* A buffer pointer `R *rio` is the map from element offsets to values
  (`Int → α`); `rio` and `iio` are separate maps.
* A twiddle table is the list of its `R` entries; a read outside the table, or
  through a null pointer, makes the enclosing function return `none`.
* Function pointers stored in a plan are tags (`apply_fn`, `bytwiddle_fn`,
  `mktwiddle_fn`) interpreted by `call_apply`, `call_bytwiddle`.
* What `dft.h` and the kernel provide and this file only uses (`cos2pi`,
  `sin2pi`, the planner's `mkplan_d`, the `NO_UGLYP` flag test, the child plan)
  enters as a parameter or as a field of a record.
-/

namespace DftwDft

/-! ## Machine integers -/

/-- Least value of a 32-bit `int`. -/
def INT_MIN : Int := -2147483648

/-- Greatest value of a 32-bit `int`. -/
def INT_MAX : Int := 2147483647

/-- Two's-complement reduction of an integer to the 32-bit `int` range. -/
def wrap32 (x : Int) : Int := (x + 2147483648) % 4294967296 - 2147483648

/-- Product of two `int`s as a 32-bit machine computes it. -/
def imul (a b : Int) : Int := wrap32 (a * b)

/-! ## Problems, solvers, planner -/

/-- Decimation mode of a dftw problem (`p->dec`): frequency or time. -/
inductive dftwdec where
  | DECDIF
  | DECDIT
  deriving DecidableEq, Repr

/-- The fields of `problem_dftw` this file reads. `rio`, `iio` are the
addresses of the two buffers. -/
structure problem_dftw where
  dec : dftwdec
  r : Int
  m : Int
  s : Int
  ws : Int
  vl : Int
  vs : Int
  wvs : Int
  rio : Nat
  iio : Nat
  deriving DecidableEq, Repr

/-- A problem handed to the solver: a dftw problem (`DFTWP(p_)` holds) or a
problem of some other kind. -/
inductive problem where
  | dftw (p : problem_dftw)
  | other
  deriving DecidableEq, Repr

/-- The solver record `S`: its `kind` field. -/
structure S where
  kind : Int
  deriving DecidableEq, Repr

/-- Result of `mktensor_1d (n, is, os)`. -/
structure tensor_1d where
  n : Int
  is : Int
  os : Int
  deriving DecidableEq, Repr

/-- Result of `mkproblem_dft_d (sz, vecsz, ri, ii, ro, io)`. -/
structure problem_dft where
  sz : tensor_1d
  vecsz : tensor_1d
  ri : Nat
  ii : Nat
  ro : Nat
  io : Nat
  deriving DecidableEq, Repr

/-- Constructor `mktensor_1d`. -/
def mktensor_1d (n is os : Int) : tensor_1d := { n := n, is := is, os := os }

/-- Constructor `mkproblem_dft_d`. -/
def mkproblem_dft_d (sz vecsz : tensor_1d) (ri ii ro io : Nat) : problem_dft :=
  { sz := sz, vecsz := vecsz, ri := ri, ii := ii, ro := ro, io := io }

/-- Operation counts of a plan (`opcnt`): `mkplan` updates `mul`, `add` and
`other`; `fma` is the count it copies and leaves alone. -/
structure opcnt (β : Type) where
  add : β
  mul : β
  fma : β
  other : β
  deriving DecidableEq, Repr

/-- The child plan as this file uses it: its operation counts and its
`apply`, called in place (`cld->apply(cld, rio, iio, rio, iio)`), which maps
the two buffers to the two buffers. -/
structure plan (α β : Type) where
  ops : opcnt β
  apply : (Int → α) × (Int → α) → (Int → α) × (Int → α)

/-- The planner as this file uses it: the value of `NO_UGLYP(plnr)` and the
answer of `mkplan_d` to a child problem (`none` is the null plan). -/
structure planner (α β : Type) where
  NO_UGLYP : Bool
  mkplan_d : problem_dft → Option (plan α β)

/-- Source lines 190-203. -/
def applicable0 (p_ : problem) : Int :=
  match p_ with
  | .dftw p => if p.vl = 1 ∧ p.s = p.ws ∧ p.vs = p.wvs then 1 else 0
  | .other => 0

/-- Source lines 205-225. The `switch` has no default: a kind other than 1
and 2 falls through to `return 1`. -/
def applicable {α β : Type} (ego : S) (p_ : problem) (plnr : planner α β) : Int :=
  if applicable0 p_ = 0 then 0
  else
    match p_ with
    | .other => 0
    | .dftw p =>
      if plnr.NO_UGLYP then
        if ego.kind = 1 then
          if imul p.m p.r > 16384 then 0 else 1
        else if ego.kind = 2 then
          if imul p.m p.r ≤ 65536 then 0 else 1
        else 1
      else 1

/-! ## Plans -/

/-- The two functions `mkplan` can store in the `apply` slot of a plan. -/
inductive apply_fn where
  | apply_dit
  | apply_dif
  deriving DecidableEq, Repr

/-- The two functions `mkplan` can store in `pln->bytwiddle`. -/
inductive bytwiddle_fn where
  | bytwiddle1
  | bytwiddle2
  deriving DecidableEq, Repr

/-- The two functions `mkplan` can store in `pln->mktwiddle`. -/
inductive mktwiddle_fn where
  | mktwiddle1
  | mktwiddle2
  deriving DecidableEq, Repr

/-- The field of `twid` this file reads: the table `W`. -/
structure twid (α : Type) where
  W : List α

/-- The plan record `P` (source lines 31-47) together with the two fields of
its `plan_dft` header this file sets: `ops` and `apply`. A pointer field is
`none` when null; `bytwiddle`, `mktwiddle` and `log2_twradix` are `none`
while nothing has been stored in them. -/
structure P (α β : Type) where
  ops : opcnt β
  apply : apply_fn
  bytwiddle : Option bytwiddle_fn
  mktwiddle : Option mktwiddle_fn
  r : Int
  m : Int
  s : Int
  cld : plan α β
  td : Option (twid α)
  log2_twradix : Option Nat
  W0 : Option (List α)
  W1 : Option (List α)
  slv : S

/-- The functions `cos2pi (i, n)` and `sin2pi (i, n)` of the kernel. -/
structure trig (α : Type) where
  cos2pi : Int → Int → α
  sin2pi : Int → Int → α

/-- The two buffers `rio`, `iio`. -/
abbrev buf (α : Type) : Type := (Int → α) × (Int → α)

/-! ## Loops -/

/-- Runs `body i`, `body (i+1)`, ... for `cnt` rounds, stopping with `none`
as soon as a round fails. -/
def loop {σ : Type} (body : Int → σ → Option σ) : Nat → Int → σ → Option σ
  | 0, _, st => some st
  | cnt + 1, i, st => (body i st).bind (loop body cnt (i + 1))

/-- The C loop `for (i = lo; i < hi; ++i) body`. -/
def forLoop {σ : Type} (lo hi : Int) (body : Int → σ → Option σ) (st : σ) : Option σ :=
  loop body (hi - lo).toNat lo st

/-! ## Split twiddle tables (kind 2) -/

/-- The loop of `choose_log2_twradix` (source lines 53-56); `fuel` bounds the
number of rounds. -/
def choose_log2_twradix_loop : Nat → Int → Nat → Nat
  | 0, _, log2r => log2r
  | fuel + 1, n, log2r =>
    if n > 0 then choose_log2_twradix_loop fuel (n.tdiv 4) (log2r + 1) else log2r

/-- Source lines 50-58. A positive `n` shrinks at every round, so `n` rounds
are more than the loop can take (`choose_log2_twradix_step`). -/
def choose_log2_twradix (n : Int) : Nat := choose_log2_twradix_loop n.toNat n 0

/-- The table written by `for (i = 0; i < cnt; ++i) { W[2*i] = c i; W[2*i+1] = s i; }`,
the index running from `i`. -/
def fill_pairs {α : Type} (c s : Int → α) : Nat → Int → List α
  | 0, _ => []
  | cnt + 1, i => c i :: s i :: fill_pairs c s cnt (i + 1)

/-- Source lines 60-87. -/
def mktwiddle2 {α β : Type} (T : trig α) (ego : P α β) (flg : Int) : P α β :=
  if flg ≠ 0 then
    let n : Int := ego.r * ego.m
    let log2_twradix : Nat := choose_log2_twradix n
    let twradix : Int := ((1 <<< log2_twradix : Nat) : Int)
    let n0 : Int := twradix
    let n1 : Int := (n + twradix - 1).tdiv twradix
    { ego with
      log2_twradix := some log2_twradix
      W0 := some (fill_pairs (fun i => T.cos2pi i n) (fun i => T.sin2pi i n) n0.toNat 0)
      W1 := some (fill_pairs (fun i => T.cos2pi (i * twradix) n)
                    (fun i => T.sin2pi (i * twradix) n) n1.toNat 0) }
  else
    { ego with W0 := none, W1 := none }

/-- The twiddle value `(wr, wi)` of source lines 100-109 for the product
index `jk`. -/
def bytwiddle2_w {α : Type} [Add α] [Sub α] [Mul α] (W0 W1 : List α) (twshft twmsk : Nat)
    (jk : Nat) : Option (α × α) :=
  let jk0 : Nat := jk &&& twmsk
  let jk1 : Nat := jk >>> twshft
  match W0[2 * jk0]?, W0[2 * jk0 + 1]?, W1[2 * jk1]?, W1[2 * jk1 + 1]? with
  | some wr0, some wi0, some wr1, some wi1 =>
    some (wr1 * wr0 - wi1 * wi0, wi1 * wr0 + wr1 * wi0)
  | _, _, _, _ => none

/-- The body of the inner loop of `bytwiddle2` (source lines 99-111). -/
def bytwiddle2_body {α : Type} [Add α] [Sub α] [Mul α] (W0 W1 : List α) (twshft twmsk : Nat)
    (m s j k : Int) (b : buf α) : Option (buf α) :=
  let jk : Nat := (j * k).toNat
  let xr := b.1 (s * (j * m + k))
  let xi := b.2 (s * (j * m + k))
  match bytwiddle2_w W0 W1 twshft twmsk jk with
  | some (wr, wi) =>
    some (Function.update b.1 (s * (j * m + k)) (xr * wr + xi * wi),
          Function.update b.2 (s * (j * m + k)) (xi * wr - xr * wi))
  | none => none

/-- Source lines 89-114. -/
def bytwiddle2 {α β : Type} [Add α] [Sub α] [Mul α] (ego : P α β) (b : buf α) :
    Option (buf α) :=
  match ego.log2_twradix, ego.W0, ego.W1 with
  | some twshft, some W0, some W1 =>
    let twmsk : Nat := (1 <<< twshft) - 1
    forLoop 1 ego.r (fun j => forLoop 1 ego.m (bytwiddle2_body W0 W1 twshft twmsk ego.m ego.s j)) b
  | _, _, _ => none

/-! ## Full twiddle table (kind 1) -/

/-- The twiddle value `(wr, wi)` of source lines 138-139 for the product
index `jk`. -/
def bytwiddle1_w {α : Type} (W : List α) (jk : Nat) : Option (α × α) :=
  match W[2 * jk]?, W[2 * jk + 1]? with
  | some wr, some wi => some (wr, wi)
  | _, _ => none

/-- The body of the inner loop of `bytwiddle1` (source lines 135-141). -/
def bytwiddle1_body {α : Type} [Add α] [Sub α] [Mul α] (W : List α)
    (m s j k : Int) (b : buf α) : Option (buf α) :=
  let jk : Nat := (j * k).toNat
  let xr := b.1 (s * (j * m + k))
  let xi := b.2 (s * (j * m + k))
  match bytwiddle1_w W jk with
  | some (wr, wi) =>
    some (Function.update b.1 (s * (j * m + k)) (xr * wr - xi * wi),
          Function.update b.2 (s * (j * m + k)) (xi * wr + xr * wi))
  | none => none

/-- Source lines 127-144. -/
def bytwiddle1 {α β : Type} [Add α] [Sub α] [Mul α] (ego : P α β) (b : buf α) :
    Option (buf α) :=
  match ego.td with
  | some td =>
    forLoop 1 ego.r (fun j => forLoop 1 ego.m (bytwiddle1_body td.W ego.m ego.s j)) b
  | none => none

/-! ## Execution -/

/-- The calls an execution of the plan makes through its function pointers. -/
inductive call where
  | bytwiddle
  | cld_apply
  deriving DecidableEq, Repr

/-- State of an execution: the two buffers and the calls made so far, oldest
first. -/
structure exec (α : Type) where
  rio : Int → α
  iio : Int → α
  calls : List call

/-- The call `ego->bytwiddle(ego, rio, iio)`. -/
def call_bytwiddle {α β : Type} [Add α] [Sub α] [Mul α] (ego : P α β) (st : exec α) :
    Option (exec α) :=
  match ego.bytwiddle with
  | some .bytwiddle1 =>
    (bytwiddle1 ego (st.rio, st.iio)).map fun b =>
      { rio := b.1, iio := b.2, calls := st.calls ++ [call.bytwiddle] }
  | some .bytwiddle2 =>
    (bytwiddle2 ego (st.rio, st.iio)).map fun b =>
      { rio := b.1, iio := b.2, calls := st.calls ++ [call.bytwiddle] }
  | none => none

/-- The call `cld->apply(ego->cld, rio, iio, rio, iio)`. -/
def call_cld_apply {α β : Type} (ego : P α β) (st : exec α) : exec α :=
  let b := ego.cld.apply (st.rio, st.iio)
  { rio := b.1, iio := b.2, calls := st.calls ++ [call.cld_apply] }

/-- Source lines 147-156. -/
def apply_dit {α β : Type} [Add α] [Sub α] [Mul α] (ego : P α β) (st : exec α) :
    Option (exec α) :=
  (call_bytwiddle ego st).map (call_cld_apply ego)

/-- Source lines 158-167. -/
def apply_dif {α β : Type} [Add α] [Sub α] [Mul α] (ego : P α β) (st : exec α) :
    Option (exec α) :=
  call_bytwiddle ego (call_cld_apply ego st)

/-- The call `ego->apply(ego, rio, iio)` through the `apply` slot of the plan. -/
def call_apply {α β : Type} [Add α] [Sub α] [Mul α] (ego : P α β) (st : exec α) :
    Option (exec α) :=
  match ego.apply with
  | .apply_dit => apply_dit ego st
  | .apply_dif => apply_dif ego st

/-! ## Plan construction -/

/-- What a call of `mkplan` leaves behind: the requests it sent to the
planner's `mkplan_d`, oldest first, and the plan it returns (`none` is the
null plan). -/
structure mkplan_out (α β : Type) where
  requests : List problem_dft
  ret : Option (P α β)

/-- Source lines 227-283. `MKPLAN_DFTW (P, &padt, f)` yields a plan whose
`apply` slot is `f`; the `switch` on the kind has no default, so a kind other
than 1 and 2 stores nothing in `mktwiddle` and `bytwiddle`. -/
def mkplan {α β : Type} [Ring β] (ego : S) (p_ : problem) (plnr : planner α β) :
    mkplan_out α β :=
  if applicable ego p_ plnr = 0 then { requests := [], ret := none }
  else
    match p_ with
    | .other => { requests := [], ret := none }
    | .dftw p =>
      let q : problem_dft :=
        mkproblem_dft_d (mktensor_1d p.r (p.m * p.s) (p.m * p.s)) (mktensor_1d p.m p.s p.s)
          p.rio p.iio p.rio p.iio
      match plnr.mkplan_d q with
      | none => { requests := [q], ret := none }
      | some cld =>
        let n0 : β := (((p.r - 1) * (p.m - 1) : Int) : β)
        { requests := [q]
          ret := some
            { apply := if p.dec = dftwdec.DECDIT then apply_fn.apply_dit else apply_fn.apply_dif
              slv := ego
              cld := cld
              r := p.r
              m := p.m
              s := p.s
              W0 := none
              W1 := none
              td := none
              log2_twradix := none
              mktwiddle :=
                if ego.kind = 1 then some mktwiddle_fn.mktwiddle1
                else if ego.kind = 2 then some mktwiddle_fn.mktwiddle2
                else none
              bytwiddle :=
                if ego.kind = 1 then some bytwiddle_fn.bytwiddle1
                else if ego.kind = 2 then some bytwiddle_fn.bytwiddle2
                else none
              ops :=
                { add := cld.ops.add + 4 * n0
                  mul := cld.ops.mul + 8 * n0
                  fma := cld.ops.fma
                  other := cld.ops.other + 8 * n0 } } }

/-- Source lines 285-291. -/
def mksolver (kind : Int) : S := { kind := kind }

/-- Source lines 293-297: the solvers registered with the planner, in order. -/
def dftw_dft_register : List S := [mksolver 1, mksolver 2]


/-! ## Complex products, and sample data for the instances -/

/-- The product `x * w` of two complex numbers given as (real, imaginary). -/
def cmul {α : Type} [Add α] [Sub α] [Mul α] (x w : α × α) : α × α :=
  (x.1 * w.1 - x.2 * w.2, x.2 * w.1 + x.1 * w.2)

/-- The conjugate of a complex number given as (real, imaginary). -/
def cconj {α : Type} [Neg α] (w : α × α) : α × α := (w.1, -w.2)

/-- The values `cos (2 pi i / 4)` and `sin (2 pi i / 4)`, exact over the
integers: what `cos2pi (i, n)` and `sin2pi (i, n)` are at `n = 4`. -/
def trig4 : trig Int where
  cos2pi := fun i _ => if i % 4 = 0 then 1 else if i % 4 = 2 then -1 else 0
  sin2pi := fun i _ => if i % 4 = 1 then 1 else if i % 4 = 3 then -1 else 0

/-- A child plan with operation counts 10, 20, 30, 40 (add, mul, fma, other)
whose `apply` doubles every real part. -/
def sample_cld : plan Int Int :=
  { ops := { add := 10, mul := 20, fma := 30, other := 40 }
    apply := fun b => (fun x => 2 * b.1 x, b.2) }

/-- A planner that answers every child request with `sample_cld`. -/
def sample_planner (no_ugly : Bool) : planner Int Int :=
  { NO_UGLYP := no_ugly, mkplan_d := fun _ => some sample_cld }

/-- An in-place, unbatched dftw problem. -/
def sample_problem (dec : dftwdec) (r m s : Int) : problem_dftw :=
  { dec := dec, r := r, m := m, s := s, ws := s, vl := 1, vs := 0, wvs := 0, rio := 0, iio := 1 }

/-- The full table of the four fourth roots of unity `(cos, sin)`. -/
def sample_td : twid Int := { W := [1, 0, 0, 1, -1, 0, 0, -1] }

/-- An execution state whose buffers hold `x + 1` and `x` at offset `x`. -/
def sample_exec : exec Int := { rio := fun x => x + 1, iio := fun x => x, calls := [] }

/-- The product `x * conj w` of a complex number with the conjugate of
another, both given as (real, imaginary). -/
def cmul_conj {α : Type} [Add α] [Sub α] [Mul α] (x w : α × α) : α × α :=
  (x.1 * w.1 + x.2 * w.2, x.2 * w.1 - x.1 * w.2)

/-- The common shape of the two inner-loop bodies: fetch the twiddle `tw j k`,
combine it by `f` with the element at offset `s * (j * m + k)`, store the
result there. -/
def twiddle_body {α : Type} (tw : Int → Int → Option (α × α)) (f : α × α → α × α → α × α)
    (m s j k : Int) (b : buf α) : Option (buf α) :=
  match tw j k with
  | some w =>
    some (Function.update b.1 (s * (j * m + k)) (f (b.1 (s * (j * m + k)), b.2 (s * (j * m + k))) w).1,
          Function.update b.2 (s * (j * m + k)) (f (b.1 (s * (j * m + k)), b.2 (s * (j * m + k))) w).2)
  | none => none

/-- A kind-1 plan for `r = 2`, `m = 3`, stride 2, awake, whose full table
holds the twelve entries 1, 0, 2, 3, ..., 11. -/
def sample_P1 : P Int Int :=
  { ops := sample_cld.ops
    apply := apply_fn.apply_dit
    bytwiddle := some bytwiddle_fn.bytwiddle1
    mktwiddle := some mktwiddle_fn.mktwiddle1
    r := 2
    m := 3
    s := 2
    cld := sample_cld
    td := some { W := [1, 0, 2, 3, 4, 5, 6, 7, 8, 9, 10, 11] }
    log2_twradix := none
    W0 := none
    W1 := none
    slv := mksolver 1 }

/-- A kind-2 plan for `r = 2`, `m = 2`, stride 1, asleep. -/
def sample_P2 : P Int Int :=
  { ops := sample_cld.ops
    apply := apply_fn.apply_dit
    bytwiddle := some bytwiddle_fn.bytwiddle2
    mktwiddle := some mktwiddle_fn.mktwiddle2
    r := 2
    m := 2
    s := 1
    cld := sample_cld
    td := none
    log2_twradix := none
    W0 := none
    W1 := none
    slv := mksolver 2 }

/-- Buffers holding `x + 1` and `x` at offset `x`. -/
def sample_buf : buf Int := (fun x => x + 1, fun x => x)

/-- A kind-2 plan over any scalars for the given `r`, `m`, `s`, asleep, with
a child plan that leaves the buffers as they are. -/
def plain_P (α : Type) (r m s : Int) : P α Int :=
  { ops := { add := 0, mul := 0, fma := 0, other := 0 }
    apply := apply_fn.apply_dit
    bytwiddle := some bytwiddle_fn.bytwiddle2
    mktwiddle := some mktwiddle_fn.mktwiddle2
    r := r
    m := m
    s := s
    cld := { ops := { add := 0, mul := 0, fma := 0, other := 0 }, apply := fun b => b }
    td := none
    log2_twradix := none
    W0 := none
    W1 := none
    slv := mksolver 2 }

/-! ## Wake, sleep and destruction -/

/-- The calls `awake`, the table builders and `destroy` make outside their
own bodies: `AWAKE (ego->cld, flg)`, `twiddle_awake (flg, &ego->td,
generic_tw, n, r, m)`, `MALLOC (count * sizeof (R), TWIDDLES)`, `ifree0 (p)`
with `p` allocated or null, and `plan_destroy_internal (ego->cld)`. -/
inductive event where
  | cld_awake (flg : Int)
  | twiddle_awake (flg n r m : Int)
  | malloc (count : Int)
  | ifree0 (allocated : Bool)
  | plan_destroy_internal
  deriving DecidableEq, Repr

/-- The table facility `twiddle_awake (flg, &td, instr, n, r, m)` of the
kernel as this file uses it: from the flag, the current `td` and the key
`(n, r, m)` to the `td` it leaves. -/
abbrev twiddle_awake_fn (α : Type) : Type :=
  Int → Option (twid α) → Int → Int → Int → Option (twid α)

/-- Modelled from the spec: the full twiddle table of the data model, which
`twiddle_awake` (not in this file) builds: the dense sequence of `n` pairs
`(cos, sin)` at angle `2 pi i / n`, `i` in `[0, n)`. -/
def full_table {α : Type} (T : trig α) (n : Int) : List α :=
  fill_pairs (fun i => T.cos2pi i n) (fun i => T.sin2pi i n) n.toNat 0

/-- Modelled from the spec: the table facility `twiddle_awake`, which is not
in this file: a request on wake (`flg` not 0) yields the full table for `n`,
a release on sleep leaves no table. The sharing of one table between plans of
equal key is not represented. -/
def spec_twiddle_awake {α : Type} (T : trig α) : twiddle_awake_fn α :=
  fun flg _ n _ _ => if flg ≠ 0 then some { W := full_table T n } else none

/-- Source lines 116-125: the plan `mktwiddle1` leaves. -/
def mktwiddle1 {α β : Type} (tw : twiddle_awake_fn α) (ego : P α β) (flg : Int) : P α β :=
  { ego with td := tw flg ego.td (ego.r * ego.m) ego.r ego.m }

/-- Source lines 123-124: the call `mktwiddle1` makes. -/
def mktwiddle1_calls {α β : Type} (ego : P α β) (flg : Int) : List event :=
  [event.twiddle_awake flg (ego.r * ego.m) ego.r ego.m]

/-- Source lines 72-73 and 84-85: the allocator calls `mktwiddle2` makes, two
`MALLOC` of `n0 * 2` and `n1 * 2` reals when building, two `ifree0` when
releasing. -/
def mktwiddle2_calls {α β : Type} (ego : P α β) (flg : Int) : List event :=
  if flg ≠ 0 then
    let n : Int := ego.r * ego.m
    let twradix : Int := ((1 <<< choose_log2_twradix n : Nat) : Int)
    let n0 : Int := twradix
    let n1 : Int := (n + twradix - 1).tdiv twradix
    [event.malloc (n0 * 2), event.malloc (n1 * 2)]
  else
    [event.ifree0 ego.W0.isSome, event.ifree0 ego.W1.isSome]

/-- The call `ego->mktwiddle(ego, flg)` through the `mktwiddle` slot: the
plan it leaves and the calls it makes; `none` when nothing is stored in the
slot. -/
def call_mktwiddle {α β : Type} (T : trig α) (tw : twiddle_awake_fn α) (ego : P α β)
    (flg : Int) : Option (P α β × List event) :=
  match ego.mktwiddle with
  | some .mktwiddle1 => some (mktwiddle1 tw ego flg, mktwiddle1_calls ego flg)
  | some .mktwiddle2 => some (mktwiddle2 T ego flg, mktwiddle2_calls ego flg)
  | none => none

/-- Source lines 169-174: `AWAKE (ego->cld, flg)`, then
`ego->mktwiddle(ego, flg)`. The result is the plan left and the calls made,
oldest first. -/
def awake {α β : Type} (T : trig α) (tw : twiddle_awake_fn α) (ego : P α β) (flg : Int) :
    Option (P α β × List event) :=
  (call_mktwiddle T tw ego flg).map fun r => (r.1, event.cld_awake flg :: r.2)

/-- Source lines 176-181. `none` is the failure of the assertion
`A(!ego->W0 && !ego->W1)`; otherwise the child plan is destroyed. -/
def destroy {α β : Type} (ego : P α β) : Option (List event) :=
  if ego.W0.isNone && ego.W1.isNone then some [event.plan_destroy_internal] else none

/-- The table of the conjugate pairs `(cos, -sin)` at angle `2 pi i / n`,
`i` in `[0, n)`, laid out like the full table. -/
def conj_table {α : Type} [Neg α] (T : trig α) (n : Int) : List α :=
  fill_pairs (fun i => T.cos2pi i n) (fun i => -T.sin2pi i n) n.toNat 0

/-! ## Discrete Fourier transforms -/

/-- The sum of the complex numbers `f 0`, ..., `f (n-1)`, given as (real,
imaginary). -/
def csum {α : Type} [Zero α] [Add α] : Nat → (Nat → α × α) → α × α
  | 0, _ => (0, 0)
  | n + 1, f => ((csum n f).1 + (f n).1, (csum n f).2 + (f n).2)

/-- Modelled from the spec: the direct (non-decomposed) DFT of size `n` of
the elements at offsets `s*0`, ..., `s*(n-1)` of the two buffers. Output `t`
is the sum over `i` of element `i` times `w (i*t)`, where `w e` is the `e`-th
power of the root of unity of the transform. -/
def direct_dft {α : Type} [Zero α] [Add α] [Sub α] [Mul α] (w : Int → α × α) (n : Nat)
    (s : Int) (b : buf α) (t : Int) : α × α :=
  csum n fun i => cmul (b.1 (s * i), b.2 (s * i)) (w (i * t))

/-- Modelled from the spec: a function on the two buffers solves, in place,
the child problem `q` that `mkplan` requests when, for every vector index `v`
of `q.vecsz` and every output index `t` of `q.sz`, the element it leaves at
offset `vecsz.os * v + sz.os * t` is the DFT of size `sz.n`, taken along the
stride `sz.is`, of the elements it found at offsets `vecsz.is * v + sz.is * j`.
`w e` is the `e`-th power of the root of unity of that transform. -/
def solves_dft {α : Type} [Zero α] [Add α] [Sub α] [Mul α] (w : Int → α × α)
    (q : problem_dft) (f : buf α → buf α) : Prop :=
  ∀ (b : buf α) (v t : Int), 0 ≤ v → v < q.vecsz.n → 0 ≤ t → t < q.sz.n →
    ((f b).1 (q.vecsz.os * v + q.sz.os * t), (f b).2 (q.vecsz.os * v + q.sz.os * t)) =
      csum q.sz.n.toNat fun j =>
        cmul (b.1 (q.vecsz.is * v + q.sz.is * j), b.2 (q.vecsz.is * v + q.sz.is * j))
          (w (j * t))

/-- The powers of the root of unity `exp (-2 pi i / n)` for `n = 1, 2, 4`,
exact over the integers: power `e` is `(cos, -sin) (2 pi e / n)`. -/
def root4 (n : Int) (e : Int) : Int × Int :=
  (trig4.cos2pi (e * (4 / n)) 4, -trig4.sin2pi (e * (4 / n)) 4)

/-- A child plan for the sub-problem of the 2 by 2 problem of stride 1: the
two transforms of size 2 along the stride 2, on the elements at offsets 0, 2
and on those at offsets 1, 3. -/
def dft2_cld : plan Int Int :=
  { ops := { add := 4, mul := 0, fma := 0, other := 0 }
    apply := fun b =>
      (fun x =>
        if x = 0 then b.1 0 + b.1 2 else if x = 2 then b.1 0 - b.1 2
        else if x = 1 then b.1 1 + b.1 3 else if x = 3 then b.1 1 - b.1 3 else b.1 x,
       fun x =>
        if x = 0 then b.2 0 + b.2 2 else if x = 2 then b.2 0 - b.2 2
        else if x = 1 then b.2 1 + b.2 3 else if x = 3 then b.2 1 - b.2 3 else b.2 x) }

/-- An execution state whose buffers hold `1 + 0i` at every offset. -/
def ones_exec : exec Int := { rio := fun _ => 1, iio := fun _ => 0, calls := [] }

/-! ## The radix loop never runs out of rounds -/

/-- The counter the loop starts from is added to its result. -/
theorem choose_log2_twradix_loop_acc (fuel : Nat) (n : Int) (log2r : Nat) :
    choose_log2_twradix_loop fuel n log2r = log2r + choose_log2_twradix_loop fuel n 0 := by
  induction fuel generalizing n log2r with
  | zero => simp [choose_log2_twradix_loop]
  | succ fuel ih =>
    unfold choose_log2_twradix_loop
    split
    · rw [ih (n.tdiv 4) (log2r + 1), ih (n.tdiv 4) (0 + 1)]
      omega
    · rfl

/-- Any two bounds of at least `n` rounds give the same result. -/
theorem choose_log2_twradix_loop_fuel (fuel fuel' : Nat) (n : Int) (log2r : Nat)
    (h : n.toNat ≤ fuel) (h' : n.toNat ≤ fuel') :
    choose_log2_twradix_loop fuel n log2r = choose_log2_twradix_loop fuel' n log2r := by
  induction fuel generalizing n log2r fuel' with
  | zero =>
    cases fuel' with
    | zero => rfl
    | succ f =>
      have hn : ¬ n > 0 := by omega
      simp [choose_log2_twradix_loop, hn]
  | succ fuel ih =>
    cases fuel' with
    | zero =>
      have hn : ¬ n > 0 := by omega
      simp [choose_log2_twradix_loop, hn]
    | succ f =>
      unfold choose_log2_twradix_loop
      split
      · next hpos =>
        have e : n.tdiv 4 = n / 4 := Int.tdiv_eq_ediv (by omega) (by decide)
        exact ih f (n.tdiv 4) (log2r + 1) (by rw [e]; omega) (by rw [e]; omega)
      · rfl

/-- The equation of the `while` loop: `choose_log2_twradix n` is 0 when
`n <= 0`, and one more than `choose_log2_twradix (n / 4)` when `n > 0`. -/
theorem choose_log2_twradix_step (n : Int) :
    choose_log2_twradix n = if n > 0 then choose_log2_twradix (n.tdiv 4) + 1 else 0 := by
  unfold choose_log2_twradix
  split
  · next hpos =>
    obtain ⟨f, hf⟩ : ∃ f, n.toNat = f + 1 := ⟨n.toNat - 1, by omega⟩
    have e : n.tdiv 4 = n / 4 := Int.tdiv_eq_ediv (by omega) (by decide)
    have h1 : choose_log2_twradix_loop (f + 1) n 0 =
        choose_log2_twradix_loop f (n.tdiv 4) (0 + 1) := by
      simp [choose_log2_twradix_loop, hpos]
    rw [hf, h1, choose_log2_twradix_loop_acc,
      choose_log2_twradix_loop_fuel f (n.tdiv 4).toNat (n.tdiv 4) 0 (by rw [e]; omega) le_rfl]
    omega
  · next hneg =>
    have : n.toNat = 0 := by omega
    rw [this]
    rfl

/-! ## Admissibility -/

/-- Within the `int` range the machine product is the product. -/
theorem imul_eq_of_fits (a b : Int) (hlo : INT_MIN ≤ a * b) (hhi : a * b ≤ INT_MAX) :
    imul a b = a * b := by
  unfold imul wrap32
  unfold INT_MIN at hlo
  unfold INT_MAX at hhi
  omega

/-- C1. Base admissibility: for every solver kind and in either planning
mode, `applicable` returns 0 and `mkplan` returns no plan when the problem is
not a dftw problem, or `vl != 1`, or `s != ws`, or `vs != wvs`; and when
`NO_UGLYP` is false `applicable` returns 1 exactly when the problem is a dftw
problem with `vl == 1`, `s == ws` and `vs == wvs`, whatever the kind and
whatever `r` and `m`. -/
theorem applicable_base {α β : Type} [Ring β] (ego : S) (p_ : problem) (plnr : planner α β) :
    ((p_ = problem.other ∨
        ∃ p, p_ = problem.dftw p ∧ (p.vl ≠ 1 ∨ p.s ≠ p.ws ∨ p.vs ≠ p.wvs)) →
      applicable ego p_ plnr = 0 ∧ (mkplan ego p_ plnr).ret = none) ∧
    (plnr.NO_UGLYP = false →
      (applicable ego p_ plnr = 1 ↔
        ∃ p, p_ = problem.dftw p ∧ p.vl = 1 ∧ p.s = p.ws ∧ p.vs = p.wvs)) := by
  constructor
  · intro h
    have h0 : applicable ego p_ plnr = 0 := by
      rcases h with rfl | ⟨p, rfl, hp⟩
      · simp [applicable, applicable0]
      · have : ¬ (p.vl = 1 ∧ p.s = p.ws ∧ p.vs = p.wvs) := by
          rintro ⟨h1, h2, h3⟩
          rcases hp with hp | hp | hp
          · exact hp h1
          · exact hp h2
          · exact hp h3
        simp [applicable, applicable0, this]
    exact ⟨h0, by simp [mkplan, h0]⟩
  · intro hu
    cases p_ with
    | other => simp [applicable, applicable0]
    | dftw p =>
      by_cases hb : p.vl = 1 ∧ p.s = p.ws ∧ p.vs = p.wvs
      · simp [applicable, applicable0, hb, hu]
      · simp [applicable, applicable0, hb]

/-- Instances of C1: a batched problem is refused by both kinds in both modes
and gets no plan; an in-place unbatched problem of size `65536 * 65536` is
accepted by both kinds when `NO_UGLYP` is false. -/
theorem applicable_base_witness :
    (applicable (mksolver 1)
        (problem.dftw ⟨dftwdec.DECDIT, 4, 4, 1, 1, 2, 0, 0, 0, 1⟩)
        (⟨true, fun _ => none⟩ : planner Int Int) = 0 ∧
      (mkplan (mksolver 2)
        (problem.dftw ⟨dftwdec.DECDIF, 4, 4, 1, 1, 2, 0, 0, 0, 1⟩)
        (⟨false, fun _ => none⟩ : planner Int Int)).ret = none) ∧
    (applicable (mksolver 1)
        (problem.dftw ⟨dftwdec.DECDIT, 65536, 65536, 1, 1, 1, 0, 0, 0, 1⟩)
        (⟨false, fun _ => none⟩ : planner Int Int) = 1 ∧
      applicable (mksolver 2)
        (problem.dftw ⟨dftwdec.DECDIT, 1, 1, 1, 1, 1, 0, 0, 0, 1⟩)
        (⟨false, fun _ => none⟩ : planner Int Int) = 1) := by
  refine ⟨⟨?_, ?_⟩, ?_, ?_⟩
  · exact ((applicable_base (mksolver 1) _ _).1 (Or.inr ⟨_, rfl, Or.inl (by decide)⟩)).1
  · exact ((applicable_base (mksolver 2) _ _).1 (Or.inr ⟨_, rfl, Or.inl (by decide)⟩)).2
  · exact ((applicable_base (mksolver 1) _ _).2 rfl).2 ⟨_, rfl, by decide, by decide, by decide⟩
  · exact ((applicable_base (mksolver 2) _ _).2 rfl).2 ⟨_, rfl, by decide, by decide, by decide⟩

/-- C2. Kind-1 size ceiling: when `NO_UGLYP` is true, for a dftw problem with
`vl == 1`, `s == ws`, `vs == wvs` whose product `r*m` fits in an `int`, the
kind-1 solver is admissible (`applicable` returns 1) if and only if
`r*m <= 16384`, and is refused (`applicable` returns 0) otherwise. -/
theorem applicable_kind1_ceiling {α β : Type} (p : problem_dftw) (plnr : planner α β)
    (hu : plnr.NO_UGLYP = true) (hvl : p.vl = 1) (hs : p.s = p.ws) (hvs : p.vs = p.wvs)
    (hlo : INT_MIN ≤ p.r * p.m) (hhi : p.r * p.m ≤ INT_MAX) :
    (applicable (mksolver 1) (problem.dftw p) plnr = 1 ↔ p.r * p.m ≤ 16384) ∧
    (applicable (mksolver 1) (problem.dftw p) plnr = 0 ↔ 16384 < p.r * p.m) := by
  have hmul : imul p.m p.r = p.r * p.m := by
    rw [imul_eq_of_fits p.m p.r (by rw [mul_comm]; exact hlo) (by rw [mul_comm]; exact hhi),
      mul_comm]
  by_cases hle : p.r * p.m ≤ 16384
  · have hnot : ¬ 16384 < p.r * p.m := not_lt.mpr hle
    simp [applicable, applicable0, mksolver, hu, hvl, hs, hvs, hmul, hle, hnot]
  · have hlt : 16384 < p.r * p.m := not_le.mp hle
    simp [applicable, applicable0, mksolver, hu, hvl, hs, hvs, hmul, hle, hlt]

/-- The boundary of C2: `r*m = 16384` (128 by 128) is admissible for kind 1
under restricted planning and `r*m = 16385` (5 by 3277) is not. -/
theorem applicable_kind1_ceiling_witness :
    applicable (mksolver 1)
        (problem.dftw ⟨dftwdec.DECDIT, 128, 128, 1, 1, 1, 0, 0, 0, 1⟩)
        (⟨true, fun _ => none⟩ : planner Int Int) = 1 ∧
    ¬ applicable (mksolver 1)
        (problem.dftw ⟨dftwdec.DECDIT, 5, 3277, 1, 1, 1, 0, 0, 0, 1⟩)
        (⟨true, fun _ => none⟩ : planner Int Int) = 1 :=
  ⟨(applicable_kind1_ceiling ⟨dftwdec.DECDIT, 128, 128, 1, 1, 1, 0, 0, 0, 1⟩ _ rfl rfl rfl rfl
      (by decide) (by decide)).1.2 (by decide),
   fun h => absurd
     ((applicable_kind1_ceiling ⟨dftwdec.DECDIT, 5, 3277, 1, 1, 1, 0, 0, 0, 1⟩ _ rfl rfl rfl rfl
        (by decide) (by decide)).1.1 h) (by decide)⟩

/-- C3. Kind-2 size floor: when `NO_UGLYP` is true, for a dftw problem with
`vl == 1`, `s == ws`, `vs == wvs` whose product `r*m` fits in an `int`, the
kind-2 solver is inadmissible (`applicable` returns 0) if and only if
`r*m <= 65536`, and is admissible (`applicable` returns 1) otherwise. -/
theorem applicable_kind2_floor {α β : Type} (p : problem_dftw) (plnr : planner α β)
    (hu : plnr.NO_UGLYP = true) (hvl : p.vl = 1) (hs : p.s = p.ws) (hvs : p.vs = p.wvs)
    (hlo : INT_MIN ≤ p.r * p.m) (hhi : p.r * p.m ≤ INT_MAX) :
    (applicable (mksolver 2) (problem.dftw p) plnr = 0 ↔ p.r * p.m ≤ 65536) ∧
    (applicable (mksolver 2) (problem.dftw p) plnr = 1 ↔ 65536 < p.r * p.m) := by
  have hmul : imul p.m p.r = p.r * p.m := by
    rw [imul_eq_of_fits p.m p.r (by rw [mul_comm]; exact hlo) (by rw [mul_comm]; exact hhi),
      mul_comm]
  by_cases hle : p.r * p.m ≤ 65536
  · have hnot : ¬ 65536 < p.r * p.m := not_lt.mpr hle
    simp [applicable, applicable0, mksolver, hu, hvl, hs, hvs, hmul, hle, hnot]
  · have hlt : 65536 < p.r * p.m := not_le.mp hle
    simp [applicable, applicable0, mksolver, hu, hvl, hs, hvs, hmul, hle, hlt]

/-- The boundary of C3: `r*m = 65536` (256 by 256) is inadmissible for kind 2
under restricted planning and `r*m = 65537` (65537 by 1) is admissible: there
`applicable` returns 1. -/
theorem applicable_kind2_floor_witness :
    applicable (mksolver 2)
        (problem.dftw ⟨dftwdec.DECDIT, 256, 256, 1, 1, 1, 0, 0, 0, 1⟩)
        (⟨true, fun _ => none⟩ : planner Int Int) = 0 ∧
    (¬ applicable (mksolver 2)
        (problem.dftw ⟨dftwdec.DECDIT, 65537, 1, 1, 1, 1, 0, 0, 0, 1⟩)
        (⟨true, fun _ => none⟩ : planner Int Int) = 0) ∧
    applicable (mksolver 2)
        (problem.dftw ⟨dftwdec.DECDIT, 65537, 1, 1, 1, 1, 0, 0, 0, 1⟩)
        (⟨true, fun _ => none⟩ : planner Int Int) = 1 :=
  ⟨(applicable_kind2_floor ⟨dftwdec.DECDIT, 256, 256, 1, 1, 1, 0, 0, 0, 1⟩ _ rfl rfl rfl rfl
      (by decide) (by decide)).1.2 (by decide),
   fun h => absurd
     ((applicable_kind2_floor ⟨dftwdec.DECDIT, 65537, 1, 1, 1, 1, 0, 0, 0, 1⟩ _ rfl rfl rfl rfl
        (by decide) (by decide)).1.1 h) (by decide),
   (applicable_kind2_floor ⟨dftwdec.DECDIT, 65537, 1, 1, 1, 1, 0, 0, 0, 1⟩ _ rfl rfl rfl rfl
      (by decide) (by decide)).2.2 (by decide)⟩

/-! ## Plan construction: cost and dispatch -/

/-- What `mkplan` returns, when it returns a plan. -/
theorem mkplan_ret_some {α β : Type} [Ring β] (ego : S) (p_ : problem) (plnr : planner α β)
    (pln : P α β) (h : (mkplan ego p_ plnr).ret = some pln) :
    ∃ p cld, p_ = problem.dftw p ∧
      plnr.mkplan_d (mkproblem_dft_d (mktensor_1d p.r (p.m * p.s) (p.m * p.s))
        (mktensor_1d p.m p.s p.s) p.rio p.iio p.rio p.iio) = some cld ∧
      pln =
        { apply := if p.dec = dftwdec.DECDIT then apply_fn.apply_dit else apply_fn.apply_dif
          slv := ego
          cld := cld
          r := p.r
          m := p.m
          s := p.s
          W0 := none
          W1 := none
          td := none
          log2_twradix := none
          mktwiddle :=
            if ego.kind = 1 then some mktwiddle_fn.mktwiddle1
            else if ego.kind = 2 then some mktwiddle_fn.mktwiddle2
            else none
          bytwiddle :=
            if ego.kind = 1 then some bytwiddle_fn.bytwiddle1
            else if ego.kind = 2 then some bytwiddle_fn.bytwiddle2
            else none
          ops :=
            { add := cld.ops.add + 4 * (((p.r - 1) * (p.m - 1) : Int) : β)
              mul := cld.ops.mul + 8 * (((p.r - 1) * (p.m - 1) : Int) : β)
              fma := cld.ops.fma
              other := cld.ops.other + 8 * (((p.r - 1) * (p.m - 1) : Int) : β) } } := by
  unfold mkplan at h
  split at h
  · simp at h
  · cases p_ with
    | other => simp at h
    | dftw p =>
      refine ⟨p, ?_⟩
      simp only at h
      split at h
      · simp at h
      · next cld hc =>
        refine ⟨cld, rfl, hc, ?_⟩
        simp only [Option.some.injEq] at h
        exact h.symm

/-- C9. Dispatch order: a plan built by `mkplan` from a `DECDIT` problem has
`apply_dit` in its `apply` slot, and a plan built from any other decimation
mode has `apply_dif`; whatever plan `ego` is later executed with that slot
(the tables may have been built in between), an execution runs the twiddle
kernel on the buffers and then the child plan on the kernel's output in the
first case, the child plan and then the kernel on the child's output in the
second, and every completed execution has made exactly these two calls, one
of the kernel and one of the child, in that order. -/
theorem mkplan_apply_order {α β : Type} [Ring β] [Add α] [Sub α] [Mul α]
    (slv : S) (p : problem_dftw) (plnr : planner α β) (pln : P α β)
    (h : (mkplan slv (problem.dftw p) plnr).ret = some pln) :
    (p.dec = dftwdec.DECDIT →
      pln.apply = apply_fn.apply_dit ∧
      ∀ ego : P α β, ego.apply = pln.apply →
        (∀ st, call_apply ego st = (call_bytwiddle ego st).map (call_cld_apply ego)) ∧
        (∀ st out, call_apply ego st = some out →
          out.calls = st.calls ++ [call.bytwiddle, call.cld_apply])) ∧
    (p.dec ≠ dftwdec.DECDIT →
      pln.apply = apply_fn.apply_dif ∧
      ∀ ego : P α β, ego.apply = pln.apply →
        (∀ st, call_apply ego st = call_bytwiddle ego (call_cld_apply ego st)) ∧
        (∀ st out, call_apply ego st = some out →
          out.calls = st.calls ++ [call.cld_apply, call.bytwiddle])) := by
  obtain ⟨p', cld, hp, -, rfl⟩ := mkplan_ret_some slv _ plnr pln h
  have hp2 : p = p' := problem.dftw.inj hp
  subst hp2
  have hcalls : ∀ (ego : P α β) (st out : exec α), call_bytwiddle ego st = some out →
      out.calls = st.calls ++ [call.bytwiddle] := by
    intro ego st out hout
    unfold call_bytwiddle at hout
    split at hout
    · simp only [Option.map_eq_some'] at hout
      obtain ⟨b, -, rfl⟩ := hout
      rfl
    · simp only [Option.map_eq_some'] at hout
      obtain ⟨b, -, rfl⟩ := hout
      rfl
    · simp at hout
  constructor
  · intro hdec
    refine ⟨by simp [hdec], ?_⟩
    intro ego hego
    have hego2 : ego.apply = apply_fn.apply_dit := by simp [hego, hdec]
    refine ⟨fun st => by simp [call_apply, hego2, apply_dit], ?_⟩
    intro st out hout
    simp only [call_apply, hego2, apply_dit, Option.map_eq_some'] at hout
    obtain ⟨mid, hmid, rfl⟩ := hout
    simp [call_cld_apply, hcalls ego st mid hmid]
  · intro hdec
    refine ⟨by simp [hdec], ?_⟩
    intro ego hego
    have hego2 : ego.apply = apply_fn.apply_dif := by simp [hego, hdec]
    refine ⟨fun st => by simp [call_apply, hego2, apply_dif], ?_⟩
    intro st out hout
    simp only [call_apply, hego2, apply_dif] at hout
    simp [hcalls ego _ out hout, call_cld_apply]

/-- Instances of C9 on a 2 by 2 problem of kind 2 with the tables of
`mktwiddle2`, a child plan that doubles the real parts and buffers holding
`(x + 1, x)` at offset `x`: built from `DECDIT` the plan leaves `(6, -4)` at
offset 3 (kernel, then child), built from `DECDIF` it leaves `(3, -8)` (child,
then kernel). -/
theorem mkplan_apply_order_witness :
    (∃ pln out,
      (mkplan (mksolver 2) (problem.dftw (sample_problem dftwdec.DECDIT 2 2 1))
        (sample_planner false)).ret = some pln ∧
      pln.apply = apply_fn.apply_dit ∧
      call_apply (mktwiddle2 trig4 pln 1) sample_exec = some out ∧
      out.calls = [call.bytwiddle, call.cld_apply] ∧
      (out.rio 3, out.iio 3) = (6, -4)) ∧
    (∃ pln out,
      (mkplan (mksolver 2) (problem.dftw (sample_problem dftwdec.DECDIF 2 2 1))
        (sample_planner false)).ret = some pln ∧
      pln.apply = apply_fn.apply_dif ∧
      call_apply (mktwiddle2 trig4 pln 1) sample_exec = some out ∧
      out.calls = [call.cld_apply, call.bytwiddle] ∧
      (out.rio 3, out.iio 3) = (3, -8)) := by
  constructor
  · have key : ∀ pln : P Int Int,
        (mkplan (mksolver 2) (problem.dftw (sample_problem dftwdec.DECDIT 2 2 1))
          (sample_planner false)).ret = some pln →
        pln.apply = apply_fn.apply_dit ∧
        ∀ out, call_apply (mktwiddle2 trig4 pln 1) sample_exec = some out →
          out.calls = [call.bytwiddle, call.cld_apply] :=
      fun pln hpln =>
        ⟨((mkplan_apply_order _ _ _ pln hpln).1 rfl).1,
         (((mkplan_apply_order _ _ _ pln hpln).1 rfl).2 (mktwiddle2 trig4 pln 1) rfl).2
           sample_exec⟩
    exact ⟨_, _, rfl, (key _ rfl).1, rfl, (key _ rfl).2 _ rfl, by decide⟩
  · have key : ∀ pln : P Int Int,
        (mkplan (mksolver 2) (problem.dftw (sample_problem dftwdec.DECDIF 2 2 1))
          (sample_planner false)).ret = some pln →
        pln.apply = apply_fn.apply_dif ∧
        ∀ out, call_apply (mktwiddle2 trig4 pln 1) sample_exec = some out →
          out.calls = [call.cld_apply, call.bytwiddle] :=
      fun pln hpln =>
        ⟨((mkplan_apply_order _ _ _ pln hpln).2 (by decide)).1,
         (((mkplan_apply_order _ _ _ pln hpln).2 (by decide)).2 (mktwiddle2 trig4 pln 1) rfl).2
           sample_exec⟩
    exact ⟨_, _, rfl, (key _ rfl).1, rfl, (key _ rfl).2 _ rfl, by decide⟩

/-- Counterexample to C10 as stated: the kind-1 plans built from the same
2 by 2 problem in time decimation and in frequency decimation, given the same
table of fourth roots of unity and the same buffers, both turn the element
`x = (4, 3)` at offset 3 into `x * w = (-3, 4)` for the table entry
`w = (0, 1)`; the time-decimation kernel does not produce
`x * conj w = (3, -4)`. -/
theorem kernel_sign_not_by_decimation :
    ∃ pd pf outd outf,
      (mkplan (mksolver 1) (problem.dftw (sample_problem dftwdec.DECDIT 2 2 1))
        (sample_planner false)).ret = some pd ∧
      (mkplan (mksolver 1) (problem.dftw (sample_problem dftwdec.DECDIF 2 2 1))
        (sample_planner false)).ret = some pf ∧
      call_bytwiddle { pd with td := some sample_td } sample_exec = some outd ∧
      call_bytwiddle { pf with td := some sample_td } sample_exec = some outf ∧
      (outf.rio 3, outf.iio 3) = cmul (sample_exec.rio 3, sample_exec.iio 3) (0, 1) ∧
      (outd.rio 3, outd.iio 3) ≠ cmul (sample_exec.rio 3, sample_exec.iio 3) (cconj (0, 1)) :=
  ⟨_, _, _, _, rfl, rfl, rfl, rfl, by decide, by decide⟩

/-- C10, amended. The sign convention of the twiddle multiplication does not
depend on the decimation mode: the plans `mkplan` builds for one solver from
two problems that differ in the decimation mode only differ in their `apply`
slot only, they hold the same kernel, the one of the solver's kind, and with
the same tables on the same buffers the kernel call of the time-decimation
plan returns what the kernel call of the frequency-decimation plan returns. -/
theorem kernel_same_for_both_decimations {α β : Type} [Ring β] [Add α] [Sub α] [Mul α]
    (slv : S) (p : problem_dftw) (plnr : planner α β) (pd pf : P α β)
    (hd : (mkplan slv (problem.dftw { p with dec := dftwdec.DECDIT }) plnr).ret = some pd)
    (hf : (mkplan slv (problem.dftw { p with dec := dftwdec.DECDIF }) plnr).ret = some pf) :
    pf = { pd with apply := apply_fn.apply_dif } ∧
    pd.bytwiddle = pf.bytwiddle ∧
    (slv.kind = 1 → pd.bytwiddle = some bytwiddle_fn.bytwiddle1) ∧
    (slv.kind = 2 → pd.bytwiddle = some bytwiddle_fn.bytwiddle2) ∧
    ∀ (td : Option (twid α)) (l : Option Nat) (W0 W1 : Option (List α)) (st : exec α),
      call_bytwiddle { pd with td := td, log2_twradix := l, W0 := W0, W1 := W1 } st =
        call_bytwiddle { pf with td := td, log2_twradix := l, W0 := W0, W1 := W1 } st := by
  obtain ⟨p1, c1, hp1, hc1, rfl⟩ := mkplan_ret_some slv _ plnr pd hd
  obtain ⟨p2, c2, hp2, hc2, rfl⟩ := mkplan_ret_some slv _ plnr pf hf
  have e1 := problem.dftw.inj hp1
  have e2 := problem.dftw.inj hp2
  subst e1
  subst e2
  simp only at hc1 hc2
  have hc : c1 = c2 := Option.some.inj (hc1.symm.trans hc2)
  subst hc
  refine ⟨by simp, rfl, ?_, ?_, ?_⟩
  · intro hk
    simp [hk]
  · intro hk
    simp [hk]
  · intro td l W0 W1 st
    rfl

/-- An instance of the amended C10 on the 2 by 2 sample problem, kind 2, with
the tables of `mktwiddle2`: both plans turn the element `(4, 3)` at offset 3
into `(3, -4)`. -/
theorem kernel_same_for_both_decimations_witness :
    ∃ pd pf outd outf,
      (mkplan (mksolver 2) (problem.dftw (sample_problem dftwdec.DECDIT 2 2 1))
        (sample_planner false)).ret = some pd ∧
      (mkplan (mksolver 2) (problem.dftw (sample_problem dftwdec.DECDIF 2 2 1))
        (sample_planner false)).ret = some pf ∧
      pd.bytwiddle = pf.bytwiddle ∧
      call_bytwiddle (mktwiddle2 trig4 pd 1) sample_exec = some outd ∧
      call_bytwiddle (mktwiddle2 trig4 pf 1) sample_exec = some outf ∧
      (outd.rio 3, outd.iio 3) = (3, -4) ∧ (outf.rio 3, outf.iio 3) = (3, -4) :=
  ⟨_, _, _, _, rfl, rfl,
    (kernel_same_for_both_decimations (mksolver 2) (sample_problem dftwdec.DECDIT 2 2 1)
      (sample_planner false) _ _ rfl rfl).2.1,
    rfl, rfl, by decide, by decide⟩

/-! ## Loops: totality, frame and footprint -/

/-- A loop whose rounds all succeed succeeds. -/
theorem loop_some {σ : Type} (body : Int → σ → Option σ) (cnt : Nat) (i0 : Int) (st : σ)
    (hbody : ∀ i, i0 ≤ i → i < i0 + cnt → ∀ t, ∃ t', body i t = some t') :
    ∃ out, loop body cnt i0 st = some out := by
  induction cnt generalizing i0 st with
  | zero => exact ⟨st, rfl⟩
  | succ cnt ih =>
    obtain ⟨t', ht'⟩ := hbody i0 le_rfl (by push_cast; omega) st
    obtain ⟨out, hout⟩ := ih (i0 + 1) t' (fun i h1 h2 => hbody i (by omega) (by push_cast; omega))
    exact ⟨out, by simp [loop, ht', hout]⟩

/-- Frame of a loop over buffers: an offset outside the footprint `F i` of
every round keeps its value. `R` holds of the indices the loop runs through. -/
theorem loop_frame {α : Type} (body : Int → buf α → Option (buf α)) (R : Int → Prop)
    (F : Int → Int → Prop)
    (hF : ∀ i, R i → ∀ b b', body i b = some b' →
      ∀ x, ¬ F i x → b'.1 x = b.1 x ∧ b'.2 x = b.2 x)
    (cnt : Nat) (i0 : Int) (hR : ∀ i, i0 ≤ i → i < i0 + cnt → R i)
    (b out : buf α) (h : loop body cnt i0 b = some out)
    (x : Int) (hx : ∀ i, i0 ≤ i → i < i0 + cnt → ¬ F i x) :
    out.1 x = b.1 x ∧ out.2 x = b.2 x := by
  induction cnt generalizing i0 b with
  | zero =>
    simp only [loop, Option.some.injEq] at h
    subst h
    exact ⟨rfl, rfl⟩
  | succ cnt ih =>
    simp only [loop, Option.bind_eq_some] at h
    obtain ⟨b1, hb1, hrest⟩ := h
    have hlt : i0 < i0 + ((cnt + 1 : Nat) : Int) := by push_cast; omega
    have h1 := hF i0 (hR i0 le_rfl hlt) b b1 hb1 x (hx i0 le_rfl hlt)
    have h2 := ih (i0 + 1) (fun i hi1 hi2 => hR i (by omega) (by push_cast; omega)) b1 hrest
      (fun i hi1 hi2 => hx i (by omega) (by push_cast; omega))
    exact ⟨h2.1.trans h1.1, h2.2.trans h1.2⟩

/-- Values written by a loop over buffers whose rounds have pairwise
disjoint footprints: at an offset in the footprint of round `i`, the final
value stands in the relation `V i` to the initial one as soon as every round
establishes `V` on its own footprint. -/
theorem loop_val {α : Type} (body : Int → buf α → Option (buf α)) (R : Int → Prop)
    (F : Int → Int → Prop) (V : Int → Int → α × α → α × α → Prop)
    (hF : ∀ i, R i → ∀ b b', body i b = some b' →
      ∀ x, ¬ F i x → b'.1 x = b.1 x ∧ b'.2 x = b.2 x)
    (hV : ∀ i, R i → ∀ b b', body i b = some b' →
      ∀ x, F i x → V i x (b.1 x, b.2 x) (b'.1 x, b'.2 x))
    (hdisj : ∀ i i' x, R i → R i' → F i x → F i' x → i = i')
    (cnt : Nat) (i0 : Int) (hR : ∀ i, i0 ≤ i → i < i0 + cnt → R i)
    (b out : buf α) (h : loop body cnt i0 b = some out)
    (i : Int) (hi0 : i0 ≤ i) (hi1 : i < i0 + cnt) (x : Int) (hx : F i x) :
    V i x (b.1 x, b.2 x) (out.1 x, out.2 x) := by
  induction cnt generalizing i0 b with
  | zero => simp at hi1; omega
  | succ cnt ih =>
    simp only [loop, Option.bind_eq_some] at h
    obtain ⟨b1, hb1, hrest⟩ := h
    have hlt : i0 < i0 + ((cnt + 1 : Nat) : Int) := by push_cast; omega
    have hR' : ∀ i', i0 + 1 ≤ i' → i' < i0 + 1 + (cnt : Int) → R i' :=
      fun i' h1 h2 => hR i' (by omega) (by push_cast; omega)
    by_cases hi : i = i0
    · subst hi
      have hfr := loop_frame body R F hF cnt (i + 1) hR' b1 out hrest x
        (fun i' h1 h2 hx' => by
          have := hdisj i i' x (hR i le_rfl hlt) (hR' i' h1 h2) hx hx'
          omega)
      rw [hfr.1, hfr.2]
      exact hV i (hR i le_rfl hlt) b b1 hb1 x hx
    · have hstep := ih (i0 + 1) hR' b1 hrest (by omega) (by push_cast at hi1 ⊢; omega)
      have hfr := hF i0 (hR i0 le_rfl hlt) b b1 hb1 x
        (fun hx' => hi (hdisj i i0 x (hR i hi0 hi1) (hR i0 le_rfl hlt) hx hx'))
      rw [hfr.1, hfr.2] at hstep
      exact hstep

/-! ## The two nested loops of a kernel -/

/-- The body of `bytwiddle1` in the common shape. -/
theorem bytwiddle1_body_eq {α : Type} [Add α] [Sub α] [Mul α] (W : List α) (m s j k : Int)
    (b : buf α) :
    bytwiddle1_body W m s j k b =
      twiddle_body (fun j k => bytwiddle1_w W (j * k).toNat) cmul m s j k b := by
  unfold bytwiddle1_body twiddle_body
  dsimp only
  cases bytwiddle1_w W (j * k).toNat with
  | none => rfl
  | some w => rfl

/-- The body of `bytwiddle2` in the common shape. -/
theorem bytwiddle2_body_eq {α : Type} [Add α] [Sub α] [Mul α] (W0 W1 : List α)
    (twshft twmsk : Nat) (m s j k : Int) (b : buf α) :
    bytwiddle2_body W0 W1 twshft twmsk m s j k b =
      twiddle_body (fun j k => bytwiddle2_w W0 W1 twshft twmsk (j * k).toNat) cmul_conj
        m s j k b := by
  unfold bytwiddle2_body twiddle_body
  dsimp only
  cases bytwiddle2_w W0 W1 twshft twmsk (j * k).toNat with
  | none => rfl
  | some w => rfl

/-- Distinct iterations `(j, k)`, `1 <= k < m`, address distinct elements
when the stride is not 0. -/
theorem offset_inj (m s j k j' k' : Int) (hs : s ≠ 0) (hk1 : 1 ≤ k) (hk2 : k < m)
    (hk1' : 1 ≤ k') (hk2' : k' < m) (h : s * (j * m + k) = s * (j' * m + k')) :
    j = j' ∧ k = k' := by
  have h2 : j * m + k = j' * m + k' := mul_left_cancel₀ hs h
  have hj : j = j' := by
    rcases lt_trichotomy j j' with hlt | heq | hgt
    · exfalso
      have : (j' - j) * m ≥ 1 * m := Int.mul_le_mul_of_nonneg_right (by omega) (by omega)
      nlinarith
    · exact heq
    · exfalso
      have : (j - j') * m ≥ 1 * m := Int.mul_le_mul_of_nonneg_right (by omega) (by omega)
      nlinarith
  subst hj
  exact ⟨rfl, by omega⟩

/-- One round of the inner loop leaves every other offset alone. -/
theorem twiddle_body_frame {α : Type} (tw : Int → Int → Option (α × α))
    (f : α × α → α × α → α × α) (m s j k : Int) (b b' : buf α)
    (h : twiddle_body tw f m s j k b = some b') (x : Int) (hx : ¬ x = s * (j * m + k)) :
    b'.1 x = b.1 x ∧ b'.2 x = b.2 x := by
  unfold twiddle_body at h
  split at h
  · simp only [Option.some.injEq] at h
    subst h
    simp [Function.update_noteq hx]
  · simp at h

/-- One round of the inner loop stores the combination of the element with
the twiddle. -/
theorem twiddle_body_val {α : Type} (tw : Int → Int → Option (α × α))
    (f : α × α → α × α → α × α) (m s j k : Int) (b b' : buf α)
    (h : twiddle_body tw f m s j k b = some b') (w : α × α) (hw : tw j k = some w) :
    (b'.1 (s * (j * m + k)), b'.2 (s * (j * m + k))) =
      f (b.1 (s * (j * m + k)), b.2 (s * (j * m + k))) w := by
  unfold twiddle_body at h
  rw [hw] at h
  simp only [Option.some.injEq] at h
  subst h
  simp

/-- The nested loops succeed when every twiddle read of the iteration space
does. -/
theorem twiddle_loops_some {α : Type} (tw : Int → Int → Option (α × α))
    (f : α × α → α × α → α × α) (r m s : Int) (b : buf α)
    (htw : ∀ j k, 1 ≤ j → j < r → 1 ≤ k → k < m → ∃ w, tw j k = some w) :
    ∃ out, forLoop 1 r (fun j => forLoop 1 m (twiddle_body tw f m s j)) b = some out := by
  unfold forLoop
  apply loop_some
  intro j hj1 hj2 t
  apply loop_some
  intro k hk1 hk2 t2
  obtain ⟨w, hw⟩ := htw j k hj1 (by omega) hk1 (by omega)
  simp only [twiddle_body, hw]
  exact ⟨_, rfl⟩

/-- Frame of one row: the inner loop of row `j` changes nothing but the
elements `s * (j * m + k)`, `1 <= k < m`. -/
theorem twiddle_row_frame {α : Type} (tw : Int → Int → Option (α × α))
    (f : α × α → α × α → α × α) (m s j : Int) (c c' : buf α)
    (hc : loop (twiddle_body tw f m s j) (m - 1).toNat 1 c = some c')
    (y : Int) (hy : ¬ ∃ k, 1 ≤ k ∧ k < m ∧ y = s * (j * m + k)) :
    c'.1 y = c.1 y ∧ c'.2 y = c.2 y := by
  refine loop_frame _ (fun _ => True) (fun k y => y = s * (j * m + k)) ?_ _ _
    (fun _ _ _ => trivial) c c' hc y ?_
  · intro k _ d d' hd z hz
    exact twiddle_body_frame tw f m s j k d d' hd z hz
  · intro k hk1 hk2 hyk
    exact hy ⟨k, hk1, by omega, hyk⟩

/-- Frame of the nested loops: an offset that is not `s * (j * m + k)` for
any `1 <= j < r`, `1 <= k < m` keeps its value. -/
theorem twiddle_loops_frame {α : Type} (tw : Int → Int → Option (α × α))
    (f : α × α → α × α → α × α) (r m s : Int) (b out : buf α)
    (h : forLoop 1 r (fun j => forLoop 1 m (twiddle_body tw f m s j)) b = some out)
    (x : Int) (hx : ∀ j k, 1 ≤ j → j < r → 1 ≤ k → k < m → x ≠ s * (j * m + k)) :
    out.1 x = b.1 x ∧ out.2 x = b.2 x := by
  unfold forLoop at h
  refine loop_frame _ (fun _ => True)
    (fun j x => ∃ k, 1 ≤ k ∧ k < m ∧ x = s * (j * m + k)) ?_ _ _ (fun _ _ _ => trivial)
    b out h x ?_
  · intro j _ c c' hc y hy
    exact twiddle_row_frame tw f m s j c c' hc y hy
  · rintro j hj1 hj2 ⟨k, hk1, hk2, hxk⟩
    exact hx j k hj1 (by omega) hk1 hk2 hxk

/-- Values left by one row, stride not 0. -/
theorem twiddle_row_val {α : Type} (tw : Int → Int → Option (α × α))
    (f : α × α → α × α → α × α) (m s j : Int) (hs : s ≠ 0) (c c' : buf α)
    (hc : loop (twiddle_body tw f m s j) (m - 1).toNat 1 c = some c')
    (k : Int) (hk1 : 1 ≤ k) (hk2 : k < m) (w : α × α) (hw : tw j k = some w) :
    (c'.1 (s * (j * m + k)), c'.2 (s * (j * m + k))) =
      f (c.1 (s * (j * m + k)), c.2 (s * (j * m + k))) w := by
  have inner := loop_val (twiddle_body tw f m s j) (fun k => 1 ≤ k ∧ k < m)
    (fun k y => y = s * (j * m + k))
    (fun k y old new => ∀ w, tw j k = some w → new = f old w)
    (fun k _ d d' hd z hz => twiddle_body_frame tw f m s j k d d' hd z hz) ?_ ?_
    (m - 1).toNat 1 (fun k h1 h2 => ⟨h1, by omega⟩) c c' hc k hk1 (by omega)
    (s * (j * m + k)) rfl
  · exact inner w hw
  · intro k _ d d' hd z hz w hw
    subst hz
    exact twiddle_body_val tw f m s j k d d' hd w hw
  · intro k k' z hk hk' hz hz'
    subst hz
    exact (offset_inj m s j k j k' hs hk.1 hk.2 hk'.1 hk'.2 hz').2

/-- Values left by the nested loops, stride not 0: the element of iteration
`(j, k)` ends as the combination of its initial value with the twiddle
`tw j k`. -/
theorem twiddle_loops_val {α : Type} (tw : Int → Int → Option (α × α))
    (f : α × α → α × α → α × α) (r m s : Int) (hs : s ≠ 0) (b out : buf α)
    (h : forLoop 1 r (fun j => forLoop 1 m (twiddle_body tw f m s j)) b = some out)
    (j k : Int) (hj1 : 1 ≤ j) (hj2 : j < r) (hk1 : 1 ≤ k) (hk2 : k < m)
    (w : α × α) (hw : tw j k = some w) :
    (out.1 (s * (j * m + k)), out.2 (s * (j * m + k))) =
      f (b.1 (s * (j * m + k)), b.2 (s * (j * m + k))) w := by
  unfold forLoop at h
  have key := loop_val (fun j => loop (twiddle_body tw f m s j) (m - 1).toNat 1)
    (fun _ => True)
    (fun j x => ∃ k, 1 ≤ k ∧ k < m ∧ x = s * (j * m + k))
    (fun j x old new => ∀ k, 1 ≤ k → k < m → x = s * (j * m + k) →
      ∀ w, tw j k = some w → new = f old w)
    (fun j _ c c' hc y hy => twiddle_row_frame tw f m s j c c' hc y hy) ?_ ?_
    (r - 1).toNat 1 (fun _ _ _ => trivial) b out h j hj1 (by omega)
    (s * (j * m + k)) ⟨k, hk1, hk2, rfl⟩
  · exact key k hk1 hk2 rfl w hw
  · intro j _ c c' hc y _ k hk1 hk2 hyk w hw
    subst hyk
    exact twiddle_row_val tw f m s j hs c c' hc k hk1 hk2 w hw
  · rintro j j' y _ _ ⟨k, hk1, hk2, hy⟩ ⟨k', hk1', hk2', hy'⟩
    subst hy
    exact (offset_inj m s j k j' k' hs hk1 hk2 hk1' hk2' hy').1

/-! ## Table reads -/

/-- Reads of a table written by `fill_pairs`: entry `2*t` is `c`, entry
`2*t+1` is `s`, at index `i + t`. -/
theorem fill_pairs_get {α : Type} (c s : Int → α) (cnt : Nat) (i : Int) (t : Nat)
    (ht : t < cnt) :
    (fill_pairs c s cnt i)[2 * t]? = some (c (i + t)) ∧
    (fill_pairs c s cnt i)[2 * t + 1]? = some (s (i + t)) := by
  induction cnt generalizing i t with
  | zero => omega
  | succ cnt ih =>
    cases t with
    | zero => simp [fill_pairs]
    | succ t =>
      have h := ih (i + 1) t (by omega)
      have e : i + 1 + (t : Int) = i + ((t + 1 : Nat) : Int) := by push_cast; ring
      rw [e] at h
      have e2 : 2 * (t + 1) = 2 * t + 1 + 1 := by ring
      rw [e2]
      simpa [fill_pairs] using h

/-- A full table of `r * m` pairs is read inside its bounds by every
iteration of `bytwiddle1`. -/
theorem bytwiddle1_w_some {α : Type} (W : List α) (r m j k : Int)
    (hW : (W.length : Int) = 2 * (r * m))
    (hj1 : 1 ≤ j) (hj2 : j < r) (hk1 : 1 ≤ k) (hk2 : k < m) :
    ∃ wr wi, W[2 * (j * k).toNat]? = some wr ∧ W[2 * (j * k).toNat + 1]? = some wi ∧
      bytwiddle1_w W (j * k).toNat = some (wr, wi) := by
  have hjk : j * k < r * m := by nlinarith
  have hpos : 0 ≤ j * k := by positivity
  have hlt : 2 * (j * k).toNat + 1 < W.length := by
    have : ((2 * (j * k).toNat + 1 : Nat) : Int) < (W.length : Int) := by
      rw [hW]
      push_cast
      rw [Int.toNat_of_nonneg hpos]
      omega
    exact_mod_cast this
  have hlt0 : 2 * (j * k).toNat < W.length := by omega
  refine ⟨W[2 * (j * k).toNat], W[2 * (j * k).toNat + 1], ?_, ?_, ?_⟩
  · exact List.getElem?_eq_getElem hlt0
  · exact List.getElem?_eq_getElem hlt
  · simp [bytwiddle1_w, List.getElem?_eq_getElem hlt0, List.getElem?_eq_getElem hlt]

/-! ## The kernels -/

/-- The loops of `bytwiddle1` in the common shape. -/
theorem bytwiddle1_eq {α β : Type} [Add α] [Sub α] [Mul α] (ego : P α β) (W : List α)
    (b : buf α) (htd : ego.td = some { W := W }) :
    bytwiddle1 ego b =
      forLoop 1 ego.r (fun j => forLoop 1 ego.m
        (twiddle_body (fun j k => bytwiddle1_w W (j * k).toNat) cmul ego.m ego.s j)) b := by
  unfold bytwiddle1
  rw [htd]
  simp only
  congr 1
  funext j c
  congr 1
  funext k d
  exact bytwiddle1_body_eq W ego.m ego.s j k d

/-- C7. Full-table kernel result: with a stride other than 0 and a table `W`
of `r * m` complex pairs, `bytwiddle1` returns, and for every `1 <= j < r`,
`1 <= k < m` the table entries `wr = W[2*jk]`, `wi = W[2*jk+1]` at `jk = j*k`
exist and the element at offset `s*(j*m+k)` ends as the complex product of
its original value `xr + i*xi` with `wr + i*wi`: real part `xr*wr - xi*wi`,
imaginary part `xi*wr + xr*wi`; the iteration `(j, k)` is the only one of the
two loops that addresses this offset, so the element is updated once. -/
theorem bytwiddle1_result {α β : Type} [Add α] [Sub α] [Mul α] (ego : P α β) (W : List α)
    (b : buf α) (hs : ego.s ≠ 0) (htd : ego.td = some { W := W })
    (hW : (W.length : Int) = 2 * (ego.r * ego.m)) :
    ∃ out, bytwiddle1 ego b = some out ∧
      ∀ j k : Int, 1 ≤ j → j < ego.r → 1 ≤ k → k < ego.m →
        ∃ wr wi, W[2 * (j * k).toNat]? = some wr ∧ W[2 * (j * k).toNat + 1]? = some wi ∧
          out.1 (ego.s * (j * ego.m + k)) =
            b.1 (ego.s * (j * ego.m + k)) * wr - b.2 (ego.s * (j * ego.m + k)) * wi ∧
          out.2 (ego.s * (j * ego.m + k)) =
            b.2 (ego.s * (j * ego.m + k)) * wr + b.1 (ego.s * (j * ego.m + k)) * wi ∧
          ∀ j' k' : Int, 1 ≤ j' → j' < ego.r → 1 ≤ k' → k' < ego.m →
            ego.s * (j' * ego.m + k') = ego.s * (j * ego.m + k) → j' = j ∧ k' = k := by
  rw [bytwiddle1_eq ego W b htd]
  obtain ⟨out, hout⟩ := twiddle_loops_some (fun j k => bytwiddle1_w W (j * k).toNat) cmul
    ego.r ego.m ego.s b (fun j k hj1 hj2 hk1 hk2 => by
      obtain ⟨wr, wi, -, -, hw⟩ := bytwiddle1_w_some W ego.r ego.m j k hW hj1 hj2 hk1 hk2
      exact ⟨_, hw⟩)
  refine ⟨out, hout, ?_⟩
  intro j k hj1 hj2 hk1 hk2
  obtain ⟨wr, wi, hwr, hwi, hw⟩ := bytwiddle1_w_some W ego.r ego.m j k hW hj1 hj2 hk1 hk2
  have hval := twiddle_loops_val _ cmul ego.r ego.m ego.s hs b out hout j k hj1 hj2 hk1 hk2
    (wr, wi) hw
  simp only [cmul, Prod.mk.injEq] at hval
  refine ⟨wr, wi, hwr, hwi, hval.1, hval.2, ?_⟩
  intro j' k' _ _ hk1' hk2' he
  exact offset_inj ego.m ego.s j' k' j k hs hk1' hk2' hk1 hk2 he

/-- An instance of C7: `r = 2`, `m = 3`, stride 2, table 1, 0, 2, 3, ..., 11,
buffers holding `(x + 1, x)` at offset `x`. The element `(9, 8)` at offset 8
(`j = 1`, `k = 1`, table entry `(2, 3)`) becomes `(-6, 43)`. -/
theorem bytwiddle1_result_witness :
    ∃ out, bytwiddle1 sample_P1 sample_buf = some out ∧ out.1 8 = -6 ∧ out.2 8 = 43 := by
  obtain ⟨out, hout, h⟩ := bytwiddle1_result sample_P1 [1, 0, 2, 3, 4, 5, 6, 7, 8, 9, 10, 11]
    sample_buf (by decide) rfl (by decide)
  obtain ⟨wr, wi, hwr, hwi, h1, h2, -⟩ := h 1 1 (by decide) (by decide) (by decide) (by decide)
  have ewr : wr = 2 := by simpa using hwr.symm
  have ewi : wi = 3 := by simpa using hwi.symm
  subst ewr
  subst ewi
  exact ⟨out, hout, h1, h2⟩

/-- Size of the second split table: the rounded-up quotient of `n` by the
radix exceeds the quotient of every index below `n`. -/
theorem split_index_lt (n : Int) (K jk : Nat) (hjk : (jk : Int) < n) :
    jk / 2 ^ K < ((n + ((2 ^ K : Nat) : Int) - 1).tdiv ((2 ^ K : Nat) : Int)).toNat := by
  have hD : 0 < 2 ^ K := Nat.pow_pos (by decide)
  obtain ⟨N, rfl⟩ := Int.eq_ofNat_of_zero_le (by omega : 0 ≤ n)
  have hN : jk < N := by exact_mod_cast hjk
  have e : ((N : Int) + ((2 ^ K : Nat) : Int) - 1) = ((N + 2 ^ K - 1 : Nat) : Int) := by
    omega
  rw [e, Int.tdiv_eq_ediv (Int.natCast_nonneg _) (Int.natCast_nonneg _), ← Int.natCast_div,
    Int.toNat_natCast, Nat.div_lt_iff_lt_mul hD]
  have h1 := Nat.div_add_mod (N + 2 ^ K - 1) (2 ^ K)
  have h2 := Nat.mod_lt (N + 2 ^ K - 1) hD
  have h3 : (N + 2 ^ K - 1) / 2 ^ K * 2 ^ K = 2 ^ K * ((N + 2 ^ K - 1) / 2 ^ K) :=
    Nat.mul_comm _ _
  generalize (N + 2 ^ K - 1) / 2 ^ K * 2 ^ K = a at h3 ⊢
  generalize 2 ^ K * ((N + 2 ^ K - 1) / 2 ^ K) = c at h1 h3
  generalize (N + 2 ^ K - 1) % 2 ^ K = d at h1 h2
  omega

/-- The twiddle that `bytwiddle2` rebuilds from split tables of radix `2^K`
written for size `n`, at a product index `jk < n`: the four reads are inside
the tables, `W0` is read at `jk & mask = jk mod 2^K`, `W1` at
`jk >> K = jk div 2^K`, the entries read are the cosines and sines the builder
stored, and the kernel multiplies the two entries as complex numbers. -/
theorem bytwiddle2_w_split {α : Type} [Add α] [Sub α] [Mul α] (T : trig α) (n : Int)
    (K jk : Nat) (hjk : (jk : Int) < n) :
    ∃ wr0 wi0 wr1 wi1,
      (fill_pairs (fun i => T.cos2pi i n) (fun i => T.sin2pi i n)
        (((1 <<< K : Nat) : Int)).toNat 0)[2 * (jk &&& ((1 <<< K) - 1))]? = some wr0 ∧
      (fill_pairs (fun i => T.cos2pi i n) (fun i => T.sin2pi i n)
        (((1 <<< K : Nat) : Int)).toNat 0)[2 * (jk &&& ((1 <<< K) - 1)) + 1]? = some wi0 ∧
      (fill_pairs (fun i => T.cos2pi (i * ((1 <<< K : Nat) : Int)) n)
        (fun i => T.sin2pi (i * ((1 <<< K : Nat) : Int)) n)
        ((n + ((1 <<< K : Nat) : Int) - 1).tdiv ((1 <<< K : Nat) : Int)).toNat 0)[
          2 * (jk >>> K)]? = some wr1 ∧
      (fill_pairs (fun i => T.cos2pi (i * ((1 <<< K : Nat) : Int)) n)
        (fun i => T.sin2pi (i * ((1 <<< K : Nat) : Int)) n)
        ((n + ((1 <<< K : Nat) : Int) - 1).tdiv ((1 <<< K : Nat) : Int)).toNat 0)[
          2 * (jk >>> K) + 1]? = some wi1 ∧
      wr0 = T.cos2pi ((jk % 2 ^ K : Nat) : Int) n ∧
      wi0 = T.sin2pi ((jk % 2 ^ K : Nat) : Int) n ∧
      wr1 = T.cos2pi (((jk / 2 ^ K : Nat) : Int) * ((2 ^ K : Nat) : Int)) n ∧
      wi1 = T.sin2pi (((jk / 2 ^ K : Nat) : Int) * ((2 ^ K : Nat) : Int)) n ∧
      bytwiddle2_w
        (fill_pairs (fun i => T.cos2pi i n) (fun i => T.sin2pi i n)
          (((1 <<< K : Nat) : Int)).toNat 0)
        (fill_pairs (fun i => T.cos2pi (i * ((1 <<< K : Nat) : Int)) n)
          (fun i => T.sin2pi (i * ((1 <<< K : Nat) : Int)) n)
          ((n + ((1 <<< K : Nat) : Int) - 1).tdiv ((1 <<< K : Nat) : Int)).toNat 0)
        K ((1 <<< K) - 1) jk =
      some (wr1 * wr0 - wi1 * wi0, wi1 * wr0 + wr1 * wi0) := by
  have hD : 0 < 2 ^ K := Nat.pow_pos (by decide)
  rw [Nat.one_shiftLeft, Int.toNat_natCast]
  have h0 := fill_pairs_get (fun i => T.cos2pi i n) (fun i => T.sin2pi i n) (2 ^ K) 0
    (jk % 2 ^ K) (Nat.mod_lt _ hD)
  have h1 := fill_pairs_get (fun i => T.cos2pi (i * ((2 ^ K : Nat) : Int)) n)
    (fun i => T.sin2pi (i * ((2 ^ K : Nat) : Int)) n)
    ((n + ((2 ^ K : Nat) : Int) - 1).tdiv ((2 ^ K : Nat) : Int)).toNat 0
    (jk / 2 ^ K) (split_index_lt n K jk hjk)
  simp only [zero_add] at h0 h1
  refine ⟨_, _, _, _, ?_, ?_, ?_, ?_, rfl, rfl, rfl, rfl, ?_⟩
  · rw [Nat.and_pow_two_sub_one_eq_mod]; exact h0.1
  · rw [Nat.and_pow_two_sub_one_eq_mod]; exact h0.2
  · rw [Nat.shiftRight_eq_div_pow]; exact h1.1
  · rw [Nat.shiftRight_eq_div_pow]; exact h1.2
  · unfold bytwiddle2_w
    simp only [Nat.and_pow_two_sub_one_eq_mod, Nat.shiftRight_eq_div_pow]
    rw [h0.1, h0.2, h1.1, h1.2]

/-- The product index of an iteration lies below `r * m`. -/
theorem product_index_lt (r m j k : Int) (hj1 : 0 ≤ j) (hj2 : j < r) (hk1 : 0 ≤ k)
    (hk2 : k < m) : (((j * k).toNat : Nat) : Int) < r * m := by
  have hpos : 0 ≤ j * k := mul_nonneg hj1 hk1
  rw [Int.toNat_of_nonneg hpos]
  nlinarith

/-- The loops of `bytwiddle2` in the common shape. -/
theorem bytwiddle2_eq {α β : Type} [Add α] [Sub α] [Mul α] (ego : P α β) (K : Nat)
    (W0 W1 : List α) (b : buf α) (hK : ego.log2_twradix = some K) (h0 : ego.W0 = some W0)
    (h1 : ego.W1 = some W1) :
    bytwiddle2 ego b =
      forLoop 1 ego.r (fun j => forLoop 1 ego.m
        (twiddle_body (fun j k => bytwiddle2_w W0 W1 K ((1 <<< K) - 1) (j * k).toNat)
          cmul_conj ego.m ego.s j)) b := by
  unfold bytwiddle2
  rw [hK, h0, h1]
  simp only
  congr 1
  funext j c
  congr 1
  funext k d
  exact bytwiddle2_body_eq W0 W1 K ((1 <<< K) - 1) ego.m ego.s j k d

/-- What `mktwiddle2` stores when asked to build (`flg` not 0). -/
theorem mktwiddle2_build {α β : Type} (T : trig α) (ego : P α β) (flg : Int) (hflg : flg ≠ 0) :
    mktwiddle2 T ego flg =
      { ego with
        log2_twradix := some (choose_log2_twradix (ego.r * ego.m))
        W0 := some (fill_pairs (fun i => T.cos2pi i (ego.r * ego.m))
          (fun i => T.sin2pi i (ego.r * ego.m))
          (((1 <<< choose_log2_twradix (ego.r * ego.m) : Nat) : Int)).toNat 0)
        W1 := some (fill_pairs
          (fun i => T.cos2pi (i * ((1 <<< choose_log2_twradix (ego.r * ego.m) : Nat) : Int))
            (ego.r * ego.m))
          (fun i => T.sin2pi (i * ((1 <<< choose_log2_twradix (ego.r * ego.m) : Nat) : Int))
            (ego.r * ego.m))
          ((ego.r * ego.m + ((1 <<< choose_log2_twradix (ego.r * ego.m) : Nat) : Int) - 1).tdiv
            ((1 <<< choose_log2_twradix (ego.r * ego.m) : Nat) : Int)).toNat 0) } := by
  unfold mktwiddle2
  rw [if_pos hflg]

/-- The plan `mktwiddle2` leaves when asked to build: same `r`, `m`, `s`,
shift `choose_log2_twradix (r*m)`, and two tables from which every product
index `jk < r*m` is rebuilt by in-bounds reads of the stored cosines and
sines. -/
theorem mktwiddle2_tables {α β : Type} [Add α] [Sub α] [Mul α] (T : trig α) (ego : P α β)
    (flg : Int) (hflg : flg ≠ 0) :
    ∃ K W0 W1,
      (mktwiddle2 T ego flg).log2_twradix = some K ∧
      (mktwiddle2 T ego flg).W0 = some W0 ∧
      (mktwiddle2 T ego flg).W1 = some W1 ∧
      (mktwiddle2 T ego flg).r = ego.r ∧
      (mktwiddle2 T ego flg).m = ego.m ∧
      (mktwiddle2 T ego flg).s = ego.s ∧
      K = choose_log2_twradix (ego.r * ego.m) ∧
      ∀ jk : Nat, (jk : Int) < ego.r * ego.m →
        ∃ wr0 wi0 wr1 wi1,
          W0[2 * (jk &&& ((1 <<< K) - 1))]? = some wr0 ∧
          W0[2 * (jk &&& ((1 <<< K) - 1)) + 1]? = some wi0 ∧
          W1[2 * (jk >>> K)]? = some wr1 ∧
          W1[2 * (jk >>> K) + 1]? = some wi1 ∧
          wr0 = T.cos2pi ((jk % 2 ^ K : Nat) : Int) (ego.r * ego.m) ∧
          wi0 = T.sin2pi ((jk % 2 ^ K : Nat) : Int) (ego.r * ego.m) ∧
          wr1 = T.cos2pi (((jk / 2 ^ K : Nat) : Int) * ((2 ^ K : Nat) : Int)) (ego.r * ego.m) ∧
          wi1 = T.sin2pi (((jk / 2 ^ K : Nat) : Int) * ((2 ^ K : Nat) : Int)) (ego.r * ego.m) ∧
          bytwiddle2_w W0 W1 K ((1 <<< K) - 1) jk =
            some (wr1 * wr0 - wi1 * wi0, wi1 * wr0 + wr1 * wi0) := by
  rw [mktwiddle2_build T ego flg hflg]
  refine ⟨_, _, _, rfl, rfl, rfl, rfl, rfl, rfl, rfl, ?_⟩
  intro jk hjk
  exact bytwiddle2_w_split T (ego.r * ego.m) (choose_log2_twradix (ego.r * ego.m)) jk hjk

/-- Result of `bytwiddle2` on a plan whose tables answer every read of the
iteration space: it returns, and each element of the iteration space ends as
the product of its initial value with the conjugate of the rebuilt twiddle. -/
theorem bytwiddle2_spec {α β : Type} [Add α] [Sub α] [Mul α] (ego : P α β) (K : Nat)
    (W0 W1 : List α) (b : buf α) (hK : ego.log2_twradix = some K) (h0 : ego.W0 = some W0)
    (h1 : ego.W1 = some W1) (hs : ego.s ≠ 0)
    (hreads : ∀ j k : Int, 1 ≤ j → j < ego.r → 1 ≤ k → k < ego.m →
      ∃ w, bytwiddle2_w W0 W1 K ((1 <<< K) - 1) (j * k).toNat = some w) :
    ∃ out, bytwiddle2 ego b = some out ∧
      ∀ j k : Int, 1 ≤ j → j < ego.r → 1 ≤ k → k < ego.m →
        ∀ w, bytwiddle2_w W0 W1 K ((1 <<< K) - 1) (j * k).toNat = some w →
          (out.1 (ego.s * (j * ego.m + k)), out.2 (ego.s * (j * ego.m + k))) =
            cmul_conj (b.1 (ego.s * (j * ego.m + k)), b.2 (ego.s * (j * ego.m + k))) w := by
  rw [bytwiddle2_eq ego K W0 W1 b hK h0 h1]
  obtain ⟨out, hout⟩ := twiddle_loops_some
    (fun j k => bytwiddle2_w W0 W1 K ((1 <<< K) - 1) (j * k).toNat) cmul_conj
    ego.r ego.m ego.s b hreads
  refine ⟨out, hout, ?_⟩
  intro j k hj1 hj2 hk1 hk2 w hw
  exact twiddle_loops_val _ cmul_conj ego.r ego.m ego.s hs b out hout j k hj1 hj2 hk1 hk2 w hw

/-- Counterexample to C6 as stated: on the 2 by 2 problem of stride 1 with
the split tables of `mktwiddle2` for `n = 4`, the twiddle rebuilt for
`j = k = 1` is `w = (0, 1)` and the element `x = (4, 3)` at offset 3 becomes
`(3, -4)`, which is not the product `x * w` the claim gives
(`xr*wr - xi*wi = -3`, `xi*wr + xr*wi = 4`). -/
theorem bytwiddle2_not_plain_product :
    ∃ K W0 W1 out wr wi,
      (mktwiddle2 trig4 sample_P2 1).log2_twradix = some K ∧
      (mktwiddle2 trig4 sample_P2 1).W0 = some W0 ∧
      (mktwiddle2 trig4 sample_P2 1).W1 = some W1 ∧
      bytwiddle2 (mktwiddle2 trig4 sample_P2 1) sample_buf = some out ∧
      bytwiddle2_w W0 W1 K ((1 <<< K) - 1) (1 * 1) = some (wr, wi) ∧
      (out.1 3, out.2 3) = (3, -4) ∧
      ¬ (out.1 3 = sample_buf.1 3 * wr - sample_buf.2 3 * wi ∧
         out.2 3 = sample_buf.2 3 * wr + sample_buf.1 3 * wi) :=
  ⟨_, _, _, _, _, _, rfl, rfl, rfl, rfl, rfl, by decide, by decide⟩

/-- C6, amended. Split-table kernel result: with a stride other than 0 and
the split tables built by `mktwiddle2` for `n = r*m`, `bytwiddle2` returns,
and for every `1 <= j < r`, `1 <= k < m` the four table entries at
`jk0 = jk & mask` and `jk1 = jk >> log2_twradix`, `jk = j*k`, exist and the
element at offset `s*(j*m+k)` ends as the complex product of its original
value `xr + i*xi` with the conjugate of the twiddle `wr + i*wi` rebuilt as
`W1[jk1] * W0[jk0]`: real part `xr*wr + xi*wi`, imaginary part
`xi*wr - xr*wi`; the iteration `(j, k)` is the only one of the two loops that
addresses this offset, so the element is updated once. -/
theorem bytwiddle2_result {α β : Type} [Add α] [Sub α] [Mul α] (T : trig α) (ego : P α β)
    (flg : Int) (b : buf α) (hflg : flg ≠ 0) (hs : ego.s ≠ 0) :
    ∃ K W0 W1 out,
      (mktwiddle2 T ego flg).log2_twradix = some K ∧
      (mktwiddle2 T ego flg).W0 = some W0 ∧
      (mktwiddle2 T ego flg).W1 = some W1 ∧
      K = choose_log2_twradix (ego.r * ego.m) ∧
      bytwiddle2 (mktwiddle2 T ego flg) b = some out ∧
      ∀ j k : Int, 1 ≤ j → j < ego.r → 1 ≤ k → k < ego.m →
        ∃ wr0 wi0 wr1 wi1,
          W0[2 * ((j * k).toNat &&& ((1 <<< K) - 1))]? = some wr0 ∧
          W0[2 * ((j * k).toNat &&& ((1 <<< K) - 1)) + 1]? = some wi0 ∧
          W1[2 * ((j * k).toNat >>> K)]? = some wr1 ∧
          W1[2 * ((j * k).toNat >>> K) + 1]? = some wi1 ∧
          out.1 (ego.s * (j * ego.m + k)) =
            b.1 (ego.s * (j * ego.m + k)) * (wr1 * wr0 - wi1 * wi0) +
              b.2 (ego.s * (j * ego.m + k)) * (wi1 * wr0 + wr1 * wi0) ∧
          out.2 (ego.s * (j * ego.m + k)) =
            b.2 (ego.s * (j * ego.m + k)) * (wr1 * wr0 - wi1 * wi0) -
              b.1 (ego.s * (j * ego.m + k)) * (wi1 * wr0 + wr1 * wi0) ∧
          ∀ j' k' : Int, 1 ≤ j' → j' < ego.r → 1 ≤ k' → k' < ego.m →
            ego.s * (j' * ego.m + k') = ego.s * (j * ego.m + k) → j' = j ∧ k' = k := by
  obtain ⟨K, W0, W1, hK, h0, h1, hr, hm, hs', hKeq, hsplit⟩ := mktwiddle2_tables T ego flg hflg
  have hreads : ∀ j k : Int, 1 ≤ j → j < (mktwiddle2 T ego flg).r → 1 ≤ k →
      k < (mktwiddle2 T ego flg).m →
      ∃ w, bytwiddle2_w W0 W1 K ((1 <<< K) - 1) (j * k).toNat = some w := by
    intro j k hj1 hj2 hk1 hk2
    rw [hr] at hj2
    rw [hm] at hk2
    obtain ⟨wr0, wi0, wr1, wi1, -, -, -, -, -, -, -, -, hw⟩ :=
      hsplit (j * k).toNat (product_index_lt ego.r ego.m j k (by omega) hj2 (by omega) hk2)
    exact ⟨_, hw⟩
  obtain ⟨out, hout, hval⟩ := bytwiddle2_spec (mktwiddle2 T ego flg) K W0 W1 b hK h0 h1
    (by rw [hs']; exact hs) hreads
  refine ⟨K, W0, W1, out, hK, h0, h1, hKeq, hout, ?_⟩
  intro j k hj1 hj2 hk1 hk2
  obtain ⟨wr0, wi0, wr1, wi1, r0, i0, r1, i1, -, -, -, -, hw⟩ :=
    hsplit (j * k).toNat (product_index_lt ego.r ego.m j k (by omega) hj2 (by omega) hk2)
  have hv := hval j k hj1 (by rw [hr]; exact hj2) hk1 (by rw [hm]; exact hk2) _ hw
  rw [hs', hm] at hv
  simp only [cmul_conj, Prod.mk.injEq] at hv
  refine ⟨wr0, wi0, wr1, wi1, r0, i0, r1, i1, hv.1, hv.2, ?_⟩
  intro j' k' _ _ hk1' hk2' he
  exact offset_inj ego.m ego.s j' k' j k hs hk1' hk2' hk1 hk2 he

/-- An instance of the amended C6: the 2 by 2 problem of stride 1 with the
split tables for `n = 4` and buffers holding `(x + 1, x)` at offset `x`. The
element `(4, 3)` at offset 3 becomes `(3, -4)`, its product with the
conjugate of the rebuilt twiddle `(0, 1)`. -/
theorem bytwiddle2_result_witness :
    ∃ out, bytwiddle2 (mktwiddle2 trig4 sample_P2 1) sample_buf = some out ∧
      out.1 3 = 3 ∧ out.2 3 = -4 := by
  obtain ⟨K, W0, W1, out, hK, h0, h1, -, hout, h⟩ :=
    bytwiddle2_result trig4 sample_P2 1 sample_buf (by decide) (by decide)
  have eK : K = 2 := (Option.some.inj hK).symm
  have e0 : W0 = [1, 0, 0, 1, -1, 0, 0, -1] := (Option.some.inj h0).symm
  have e1 : W1 = [1, 0] := (Option.some.inj h1).symm
  subst eK
  subst e0
  subst e1
  obtain ⟨wr0, wi0, wr1, wi1, r0, i0, r1, i1, hre, him, -⟩ :=
    h 1 1 (by decide) (by decide) (by decide) (by decide)
  have a0 : wr0 = 0 := (Option.some.inj r0).symm
  have a1 : wi0 = 1 := (Option.some.inj i0).symm
  have a2 : wr1 = 1 := (Option.some.inj r1).symm
  have a3 : wi1 = 0 := (Option.some.inj i1).symm
  subst a0
  subst a1
  subst a2
  subst a3
  exact ⟨out, hout, hre, him⟩

/-! ## The split tables over the reals -/

/-- The angles of the two table entries add up to the angle of the index. -/
theorem angle_split (n : ℝ) (q D rm jk : Nat) (h : q * D + rm = jk) :
    2 * Real.pi * ((((q : Int) * (D : Int) : Int)) : ℝ) / n +
        2 * Real.pi * (((rm : Int)) : ℝ) / n =
      2 * Real.pi * (jk : ℝ) / n := by
  subst h
  push_cast
  ring

/-- C5. Split-table reconstruction law in exact real arithmetic: when
`cos2pi (i, n)` is `cos (2 pi i / n)` and `sin2pi (i, n)` is `sin (2 pi i / n)`,
then for the tables `W0`, `W1` and the shift `K = choose_log2_twradix (r*m)`
that `mktwiddle2` builds, and for every `j < r`, `k < m`, the four entries
`W0[jk0]`, `W1[jk1]` at `jk0 = jk & mask = jk mod 2^K`,
`jk1 = jk >> K = jk div 2^K`, `jk = j*k`, exist, and the complex product
`wr = wr1*wr0 - wi1*wi0`, `wi = wi1*wr0 + wr1*wi0` that `bytwiddle2` computes
from them is the root of unity `(cos (2 pi jk / n), sin (2 pi jk / n))`,
`n = r*m`. -/
theorem split_table_reconstruction {β : Type} (T : trig ℝ)
    (hcos : ∀ i n : Int, T.cos2pi i n = Real.cos (2 * Real.pi * (i : ℝ) / (n : ℝ)))
    (hsin : ∀ i n : Int, T.sin2pi i n = Real.sin (2 * Real.pi * (i : ℝ) / (n : ℝ)))
    (ego : P ℝ β) (flg : Int) (hflg : flg ≠ 0) (j k : Nat)
    (hj : (j : Int) < ego.r) (hk : (k : Int) < ego.m) :
    ∃ K W0 W1,
      (mktwiddle2 T ego flg).log2_twradix = some K ∧
      (mktwiddle2 T ego flg).W0 = some W0 ∧
      (mktwiddle2 T ego flg).W1 = some W1 ∧
      K = choose_log2_twradix (ego.r * ego.m) ∧
      (j * k) &&& ((1 <<< K) - 1) = (j * k) % 2 ^ K ∧
      (j * k) >>> K = (j * k) / 2 ^ K ∧
      ∃ wr0 wi0 wr1 wi1,
        W0[2 * ((j * k) &&& ((1 <<< K) - 1))]? = some wr0 ∧
        W0[2 * ((j * k) &&& ((1 <<< K) - 1)) + 1]? = some wi0 ∧
        W1[2 * ((j * k) >>> K)]? = some wr1 ∧
        W1[2 * ((j * k) >>> K) + 1]? = some wi1 ∧
        bytwiddle2_w W0 W1 K ((1 <<< K) - 1) (j * k) =
          some (wr1 * wr0 - wi1 * wi0, wi1 * wr0 + wr1 * wi0) ∧
        wr1 * wr0 - wi1 * wi0 =
          Real.cos (2 * Real.pi * ((j * k : Nat) : ℝ) / ((ego.r * ego.m : Int) : ℝ)) ∧
        wi1 * wr0 + wr1 * wi0 =
          Real.sin (2 * Real.pi * ((j * k : Nat) : ℝ) / ((ego.r * ego.m : Int) : ℝ)) := by
  obtain ⟨K, W0, W1, hK, h0, h1, -, -, -, hKeq, hsplit⟩ := mktwiddle2_tables T ego flg hflg
  have hjk : (((j * k : Nat) : Nat) : Int) < ego.r * ego.m := by
    push_cast
    nlinarith [Int.natCast_nonneg j, Int.natCast_nonneg k]
  obtain ⟨wr0, wi0, wr1, wi1, r0, i0, r1, i1, e0, e1, e2, e3, hw⟩ := hsplit (j * k) hjk
  refine ⟨K, W0, W1, hK, h0, h1, hKeq, ?_, Nat.shiftRight_eq_div_pow _ _,
    wr0, wi0, wr1, wi1, r0, i0, r1, i1, hw, ?_, ?_⟩
  · rw [Nat.one_shiftLeft, Nat.and_pow_two_sub_one_eq_mod]
  · rw [e0, e1, e2, e3, hcos, hcos, hsin, hsin, ← Real.cos_add,
      angle_split _ (j * k / 2 ^ K) (2 ^ K) (j * k % 2 ^ K) (j * k) (Nat.div_add_mod' _ _)]
  · rw [e0, e1, e2, e3, hcos, hcos, hsin, hsin, ← Real.sin_add,
      angle_split _ (j * k / 2 ^ K) (2 ^ K) (j * k % 2 ^ K) (j * k) (Nat.div_add_mod' _ _)]

/-- An instance of C5: `r = 3`, `m = 5`, `j = 2`, `k = 4`, exact cosines and
sines. The twiddle rebuilt for `jk = 8` from the split tables for `n = 15` is
`(cos (2 pi 8 / 15), sin (2 pi 8 / 15))`. -/
theorem split_table_reconstruction_witness :
    ∃ K W0 W1,
      (mktwiddle2 (⟨fun i n => Real.cos (2 * Real.pi * (i : ℝ) / (n : ℝ)),
        fun i n => Real.sin (2 * Real.pi * (i : ℝ) / (n : ℝ))⟩ : trig ℝ)
        (plain_P ℝ 3 5 1) 1).log2_twradix = some K ∧
      (mktwiddle2 (⟨fun i n => Real.cos (2 * Real.pi * (i : ℝ) / (n : ℝ)),
        fun i n => Real.sin (2 * Real.pi * (i : ℝ) / (n : ℝ))⟩ : trig ℝ)
        (plain_P ℝ 3 5 1) 1).W0 = some W0 ∧
      (mktwiddle2 (⟨fun i n => Real.cos (2 * Real.pi * (i : ℝ) / (n : ℝ)),
        fun i n => Real.sin (2 * Real.pi * (i : ℝ) / (n : ℝ))⟩ : trig ℝ)
        (plain_P ℝ 3 5 1) 1).W1 = some W1 ∧
      bytwiddle2_w W0 W1 K ((1 <<< K) - 1) (2 * 4) =
        some (Real.cos (2 * Real.pi * ((2 * 4 : Nat) : ℝ) / (((3 : Int) * 5 : Int) : ℝ)),
              Real.sin (2 * Real.pi * ((2 * 4 : Nat) : ℝ) / (((3 : Int) * 5 : Int) : ℝ))) := by
  obtain ⟨K, W0, W1, hK, h0, h1, -, -, -, wr0, wi0, wr1, wi1, -, -, -, -, hw, hc, hs⟩ :=
    split_table_reconstruction
      (⟨fun i n => Real.cos (2 * Real.pi * (i : ℝ) / (n : ℝ)),
        fun i n => Real.sin (2 * Real.pi * (i : ℝ) / (n : ℝ))⟩ : trig ℝ)
      (fun _ _ => rfl) (fun _ _ => rfl) (plain_P ℝ 3 5 1) 1 (by decide) 2 4
      (by decide) (by decide)
  refine ⟨K, W0, W1, hK, h0, h1, ?_⟩
  rw [hw, hc, hs]
  rfl

/-! ## Frame of the kernels -/

/-- The row `j = 0` lies outside the iteration space. -/
theorem row0_untouched (m s k : Int) (hs : s ≠ 0) (hk : k < m) (j' k' : Int)
    (hj1 : 1 ≤ j') (hk1 : 1 ≤ k') (hk2 : k' < m) : s * k ≠ s * (j' * m + k') := by
  intro h
  have h2 : k = j' * m + k' := mul_left_cancel₀ hs h
  have : j' * m ≥ 1 * m := Int.mul_le_mul_of_nonneg_right hj1 (by omega)
  omega

/-- The column `k = 0` lies outside the iteration space. -/
theorem col0_untouched (m s j : Int) (hs : s ≠ 0) (j' k' : Int)
    (hk1 : 1 ≤ k') (hk2 : k' < m) : s * (j * m) ≠ s * (j' * m + k') := by
  intro h
  have h2 : j * m = j' * m + k' := mul_left_cancel₀ hs h
  rcases le_or_lt j j' with hle | hlt
  · have : j * m ≤ j' * m := Int.mul_le_mul_of_nonneg_right hle (by omega)
    omega
  · have : (j - j') * m ≥ 1 * m := Int.mul_le_mul_of_nonneg_right (by omega) (by omega)
    have e : (j - j') * m = j * m - j' * m := by ring
    omega

/-- Frame of `bytwiddle1`, whatever its table. -/
theorem bytwiddle1_frame {α β : Type} [Add α] [Sub α] [Mul α] (ego : P α β) (b out : buf α)
    (h : bytwiddle1 ego b = some out) (x : Int)
    (hx : ∀ j k, 1 ≤ j → j < ego.r → 1 ≤ k → k < ego.m → x ≠ ego.s * (j * ego.m + k)) :
    out.1 x = b.1 x ∧ out.2 x = b.2 x := by
  cases htd : ego.td with
  | none => simp [bytwiddle1, htd] at h
  | some td =>
    rw [bytwiddle1_eq ego td.W b htd] at h
    exact twiddle_loops_frame _ _ ego.r ego.m ego.s b out h x hx

/-- Frame of `bytwiddle2`, whatever its tables. -/
theorem bytwiddle2_frame {α β : Type} [Add α] [Sub α] [Mul α] (ego : P α β) (b out : buf α)
    (h : bytwiddle2 ego b = some out) (x : Int)
    (hx : ∀ j k, 1 ≤ j → j < ego.r → 1 ≤ k → k < ego.m → x ≠ ego.s * (j * ego.m + k)) :
    out.1 x = b.1 x ∧ out.2 x = b.2 x := by
  cases hK : ego.log2_twradix with
  | none => simp [bytwiddle2, hK] at h
  | some K =>
    cases h0 : ego.W0 with
    | none => simp [bytwiddle2, hK, h0] at h
    | some W0 =>
      cases h1 : ego.W1 with
      | none => simp [bytwiddle2, hK, h0, h1] at h
      | some W1 =>
        rw [bytwiddle2_eq ego K W0 W1 b hK h0 h1] at h
        exact twiddle_loops_frame _ _ ego.r ego.m ego.s b out h x hx

/-- C8. Kernel frame: whenever `bytwiddle1` or `bytwiddle2` returns, every
buffer position that is not `s*(j*m+k)` for some `1 <= j < r`, `1 <= k < m`
holds the real and imaginary values it held before; with a stride other than
0 this covers the row `j = 0` (offsets `s*k`, `k < m`) and the column `k = 0`
(offsets `s*j*m`). Both kernels do return: `bytwiddle1` on a table of `r*m`
pairs, `bytwiddle2` on the tables built by `mktwiddle2`. The kernels take the
plan and its tables as arguments they only read, and return the buffers. -/
theorem bytwiddle_frame {α β : Type} [Add α] [Sub α] [Mul α] (ego : P α β) (b : buf α) :
    (∀ out, (bytwiddle1 ego b = some out ∨ bytwiddle2 ego b = some out) →
      (∀ x, (∀ j k, 1 ≤ j → j < ego.r → 1 ≤ k → k < ego.m → x ≠ ego.s * (j * ego.m + k)) →
        out.1 x = b.1 x ∧ out.2 x = b.2 x) ∧
      (ego.s ≠ 0 → ∀ k, k < ego.m →
        out.1 (ego.s * k) = b.1 (ego.s * k) ∧ out.2 (ego.s * k) = b.2 (ego.s * k)) ∧
      (ego.s ≠ 0 → ∀ j,
        out.1 (ego.s * (j * ego.m)) = b.1 (ego.s * (j * ego.m)) ∧
        out.2 (ego.s * (j * ego.m)) = b.2 (ego.s * (j * ego.m)))) ∧
    (∀ W, ego.td = some { W := W } → (W.length : Int) = 2 * (ego.r * ego.m) →
      ∃ out, bytwiddle1 ego b = some out) ∧
    (∀ (T : trig α) (flg : Int), flg ≠ 0 →
      ∃ out, bytwiddle2 (mktwiddle2 T ego flg) b = some out) := by
  refine ⟨?_, ?_, ?_⟩
  · intro out h
    have hfr : ∀ x,
        (∀ j k, 1 ≤ j → j < ego.r → 1 ≤ k → k < ego.m → x ≠ ego.s * (j * ego.m + k)) →
        out.1 x = b.1 x ∧ out.2 x = b.2 x := by
      intro x hx
      rcases h with h | h
      · exact bytwiddle1_frame ego b out h x hx
      · exact bytwiddle2_frame ego b out h x hx
    refine ⟨hfr, ?_, ?_⟩
    · intro hs k hk
      exact hfr _ (fun j' k' hj1 _ hk1 hk2 => row0_untouched ego.m ego.s k hs hk j' k' hj1 hk1 hk2)
    · intro hs j
      exact hfr _ (fun j' k' _ _ hk1 hk2 => col0_untouched ego.m ego.s j hs j' k' hk1 hk2)
  · intro W htd hW
    rw [bytwiddle1_eq ego W b htd]
    exact twiddle_loops_some _ cmul ego.r ego.m ego.s b (fun j k hj1 hj2 hk1 hk2 => by
      obtain ⟨wr, wi, -, -, hw⟩ := bytwiddle1_w_some W ego.r ego.m j k hW hj1 hj2 hk1 hk2
      exact ⟨_, hw⟩)
  · intro T flg hflg
    obtain ⟨K, W0, W1, hK, h0, h1, hr, hm, -, -, hsplit⟩ := mktwiddle2_tables T ego flg hflg
    rw [bytwiddle2_eq _ K W0 W1 b hK h0 h1]
    refine twiddle_loops_some _ cmul_conj _ _ _ b (fun j k hj1 hj2 hk1 hk2 => ?_)
    rw [hr] at hj2
    rw [hm] at hk2
    obtain ⟨wr0, wi0, wr1, wi1, -, -, -, -, -, -, -, -, hw⟩ :=
      hsplit (j * k).toNat (product_index_lt ego.r ego.m j k (by omega) hj2 (by omega) hk2)
    exact ⟨_, hw⟩

/-- Instances of C8 on buffers holding `(x + 1, x)` at offset `x`. After
`bytwiddle1` for `r = 2`, `m = 3`, stride 2, offset 2 (row `j = 0`) and offset
6 (column `k = 0`) are as before; after `bytwiddle2` for `r = m = 2`, stride
1, so are offset 1 (row `j = 0`), offset 2 (column `k = 0`) and offset 4
(beyond the iteration space). -/
theorem bytwiddle_frame_witness :
    (∃ out, bytwiddle1 sample_P1 sample_buf = some out ∧
      (out.1 2, out.2 2) = (3, 2) ∧ (out.1 6, out.2 6) = (7, 6)) ∧
    (∃ out, bytwiddle2 (mktwiddle2 trig4 sample_P2 1) sample_buf = some out ∧
      (out.1 1, out.2 1) = (2, 1) ∧ (out.1 2, out.2 2) = (3, 2) ∧
      (out.1 4, out.2 4) = (5, 4)) := by
  constructor
  · obtain ⟨out, hout⟩ := (bytwiddle_frame sample_P1 sample_buf).2.1
      [1, 0, 2, 3, 4, 5, 6, 7, 8, 9, 10, 11] rfl (by decide)
    obtain ⟨-, hrow, hcol⟩ := (bytwiddle_frame sample_P1 sample_buf).1 out (Or.inl hout)
    have h2 := hrow (by decide) 1 (by decide)
    have h6 := hcol (by decide) 1
    exact ⟨out, hout, Prod.ext h2.1 h2.2, Prod.ext h6.1 h6.2⟩
  · obtain ⟨out, hout⟩ := (bytwiddle_frame sample_P2 sample_buf).2.2 trig4 1 (by decide)
    obtain ⟨hfr, hrow, hcol⟩ :=
      (bytwiddle_frame (mktwiddle2 trig4 sample_P2 1) sample_buf).1 out (Or.inr hout)
    have h1 := hrow (by decide) 1 (by decide)
    have h2 := hcol (by decide) 1
    have h4 := hfr 4 (fun j k hj1 hj2 hk1 hk2 => by
      have e1 : (mktwiddle2 trig4 sample_P2 1).r = 2 := rfl
      have e2 : (mktwiddle2 trig4 sample_P2 1).m = 2 := rfl
      have e3 : (mktwiddle2 trig4 sample_P2 1).s = 1 := rfl
      rw [e1] at hj2
      rw [e2] at hk2
      rw [e2, e3]
      omega)
    exact ⟨out, hout, Prod.ext h1.1 h1.2, Prod.ext h2.1 h2.2, Prod.ext h4.1 h4.2⟩

/-! ## The radix: value and table sizes -/

/-- The radix exponent of a positive size: `K >= 1` and `4^(K-1) <= n < 4^K`. -/
theorem choose_log2_twradix_bounds (n : Nat) (hn : 1 ≤ n) :
    1 ≤ choose_log2_twradix (n : Int) ∧
    4 ^ (choose_log2_twradix (n : Int) - 1) ≤ n ∧
    n < 4 ^ choose_log2_twradix (n : Int) := by
  induction n using Nat.strong_induction_on with
  | _ n ih =>
    have hstep := choose_log2_twradix_step (n : Int)
    have hpos : (n : Int) > 0 := by omega
    rw [if_pos hpos] at hstep
    have e : (n : Int).tdiv 4 = ((n / 4 : Nat) : Int) := by
      rw [Int.tdiv_eq_ediv (by omega) (by decide), Int.natCast_div]
      rfl
    rw [e] at hstep
    rw [hstep]
    by_cases hq : n / 4 = 0
    · have h0 : choose_log2_twradix ((n / 4 : Nat) : Int) = 0 := by
        rw [hq]
        rfl
      rw [h0]
      refine ⟨le_rfl, ?_, ?_⟩
      · simpa using hn
      · simp only [zero_add, pow_one]
        omega
    · obtain ⟨h1, h2, h3⟩ := ih (n / 4) (by omega) (by omega)
      refine ⟨by omega, ?_, ?_⟩
      · have e2 : choose_log2_twradix ((n / 4 : Nat) : Int) + 1 - 1 =
            (choose_log2_twradix ((n / 4 : Nat) : Int) - 1) + 1 := by omega
        rw [e2, pow_succ]
        omega
      · rw [pow_succ]
        omega

/-- Repeated truncating division by 4 of a size that is not negative reaches
0 after exactly `choose_log2_twradix n` rounds, and not before. -/
theorem choose_log2_twradix_iterate (n : Nat) :
    (fun x : Int => x.tdiv 4)^[choose_log2_twradix (n : Int)] (n : Int) = 0 ∧
    ∀ i, i < choose_log2_twradix (n : Int) → 0 < (fun x : Int => x.tdiv 4)^[i] (n : Int) := by
  induction n using Nat.strong_induction_on with
  | _ n ih =>
    have hstep := choose_log2_twradix_step (n : Int)
    by_cases hn : n = 0
    · subst hn
      have h0 : choose_log2_twradix ((0 : Nat) : Int) = 0 := rfl
      rw [h0]
      exact ⟨rfl, fun i hi => absurd hi (Nat.not_lt_zero i)⟩
    · have hpos : (n : Int) > 0 := by omega
      rw [if_pos hpos] at hstep
      have e : (n : Int).tdiv 4 = ((n / 4 : Nat) : Int) := by
        rw [Int.tdiv_eq_ediv (by omega) (by decide), Int.natCast_div]
        rfl
      rw [e] at hstep
      obtain ⟨h1, h2⟩ := ih (n / 4) (by omega)
      rw [hstep]
      constructor
      · rw [Function.iterate_succ_apply]
        show (fun x : Int => x.tdiv 4)^[_] ((n : Int).tdiv 4) = 0
        rw [e]
        exact h1
      · intro i hi
        cases i with
        | zero => exact hpos
        | succ i =>
          rw [Function.iterate_succ_apply]
          show 0 < (fun x : Int => x.tdiv 4)^[i] ((n : Int).tdiv 4)
          rw [e]
          exact h2 i (by omega)

/-- Squares of powers of 2 are powers of 4. -/
theorem two_pow_sq (a : Nat) : ((2 : ℝ) ^ a) ^ 2 = (4 : ℝ) ^ a := by
  rw [← pow_mul, mul_comm, pow_mul]
  norm_num

/-- The square root of a size with `4^(K-1) <= n < 4^K` lies in
`[2^(K-1), 2^K)`, and the ceiling of its binary logarithm is `K`, or `K - 1`
when `n = 4^(K-1)`. -/
theorem sqrt_log_of_bounds (N K : Nat) (hK : 1 ≤ K) (hlo : 4 ^ (K - 1) ≤ N) (hhi : N < 4 ^ K) :
    (2 : ℝ) ^ (K - 1) ≤ Real.sqrt (N : ℝ) ∧ Real.sqrt (N : ℝ) < (2 : ℝ) ^ K ∧
    (N = 4 ^ (K - 1) → ⌈Real.logb 2 (Real.sqrt (N : ℝ))⌉ = (K : Int) - 1) ∧
    (N ≠ 4 ^ (K - 1) → ⌈Real.logb 2 (Real.sqrt (N : ℝ))⌉ = (K : Int)) := by
  have hloR : (4 : ℝ) ^ (K - 1) ≤ (N : ℝ) := by exact_mod_cast hlo
  have hhiR : (N : ℝ) < (4 : ℝ) ^ K := by exact_mod_cast hhi
  have hN0 : (0 : ℝ) ≤ (N : ℝ) := Nat.cast_nonneg N
  have h2pos : ∀ a : Nat, (0 : ℝ) < (2 : ℝ) ^ a := fun a => pow_pos (by norm_num) a
  have hsq_lo : (2 : ℝ) ^ (K - 1) ≤ Real.sqrt (N : ℝ) := by
    rw [Real.le_sqrt (h2pos _).le hN0, two_pow_sq]
    exact hloR
  have hsq_hi : Real.sqrt (N : ℝ) < (2 : ℝ) ^ K := by
    rw [Real.sqrt_lt' (h2pos _), two_pow_sq]
    exact hhiR
  have hsq_pos : (0 : ℝ) < Real.sqrt (N : ℝ) := lt_of_lt_of_le (h2pos _) hsq_lo
  have hcast : (((K - 1 : Nat) : Nat) : ℝ) = (K : ℝ) - 1 := by
    rw [Nat.cast_sub hK]
    simp
  have hupper : Real.logb 2 (Real.sqrt (N : ℝ)) ≤ (K : ℝ) := by
    rw [Real.logb_le_iff_le_rpow (by norm_num) hsq_pos, Real.rpow_natCast]
    exact hsq_hi.le
  refine ⟨hsq_lo, hsq_hi, ?_, ?_⟩
  · intro hN
    have hs : Real.sqrt (N : ℝ) = (2 : ℝ) ^ (K - 1) := by
      rw [hN]
      push_cast
      rw [← two_pow_sq, Real.sqrt_sq (h2pos _).le]
    have hl : Real.logb 2 (Real.sqrt (N : ℝ)) = (((K : Int) - 1 : Int) : ℝ) := by
      rw [hs, ← Real.rpow_natCast, Real.logb_rpow (by norm_num) (by norm_num), hcast]
      push_cast
      rfl
    rw [hl, Int.ceil_intCast]
  · intro hN
    have hlt : (4 : ℝ) ^ (K - 1) < (N : ℝ) := by
      have : 4 ^ (K - 1) < N := lt_of_le_of_ne hlo (Ne.symm hN)
      exact_mod_cast this
    rw [Int.ceil_eq_iff]
    constructor
    · have : (((K : Int) : ℝ)) - 1 = (((K - 1 : Nat) : Nat) : ℝ) := by
        rw [hcast]
        simp
      rw [this, Real.lt_logb_iff_rpow_lt (by norm_num) hsq_pos, Real.rpow_natCast,
        Real.lt_sqrt (h2pos _).le, two_pow_sq]
      exact hlt
    · simpa using hupper

/-- C16. `choose_log2_twradix` is total; it returns 0 for every `n <= 0`; for
every `n >= 1` it returns the unique `K >= 1` with `4^(K-1) <= n < 4^K`, which
is the number of truncating divisions by 4 that bring `n` to 0 (after `K`
divisions `n` is 0, after fewer it is positive); hence
`2^(K-1) <= sqrt n < 2^K`, and `K` is the ceiling of `log2 (sqrt n)` unless
`n` is an exact power of 4, where it is one more. -/
theorem choose_log2_twradix_value :
    (∀ n : Int, n ≤ 0 → choose_log2_twradix n = 0) ∧
    (∀ n : Int, 1 ≤ n →
      1 ≤ choose_log2_twradix n ∧
      (4 : Int) ^ (choose_log2_twradix n - 1) ≤ n ∧
      n < (4 : Int) ^ choose_log2_twradix n ∧
      (∀ k : Nat, 1 ≤ k → (4 : Int) ^ (k - 1) ≤ n → n < (4 : Int) ^ k →
        k = choose_log2_twradix n) ∧
      (fun x : Int => x.tdiv 4)^[choose_log2_twradix n] n = 0 ∧
      (∀ i, i < choose_log2_twradix n → 0 < (fun x : Int => x.tdiv 4)^[i] n) ∧
      (2 : ℝ) ^ (choose_log2_twradix n - 1) ≤ Real.sqrt (n : ℝ) ∧
      Real.sqrt (n : ℝ) < (2 : ℝ) ^ choose_log2_twradix n ∧
      ((∃ j : Nat, n = (4 : Int) ^ j) →
        ⌈Real.logb 2 (Real.sqrt (n : ℝ))⌉ = (choose_log2_twradix n : Int) - 1) ∧
      ((¬ ∃ j : Nat, n = (4 : Int) ^ j) →
        ⌈Real.logb 2 (Real.sqrt (n : ℝ))⌉ = (choose_log2_twradix n : Int))) := by
  constructor
  · intro n hn
    rw [choose_log2_twradix_step, if_neg (by omega)]
  · intro n hn
    obtain ⟨N, rfl⟩ := Int.eq_ofNat_of_zero_le (by omega : 0 ≤ n)
    have hN : 1 ≤ N := by omega
    obtain ⟨h1, h2, h3⟩ := choose_log2_twradix_bounds N hN
    obtain ⟨i1, i2⟩ := choose_log2_twradix_iterate N
    have huniq : ∀ k : Nat, 1 ≤ k → 4 ^ (k - 1) ≤ N → N < 4 ^ k →
        k = choose_log2_twradix (N : Int) := by
      intro k hk hlo hhi
      rcases lt_trichotomy k (choose_log2_twradix (N : Int)) with hlt | heq | hgt
      · exfalso
        have : 4 ^ k ≤ 4 ^ (choose_log2_twradix (N : Int) - 1) :=
          Nat.pow_le_pow_right (by decide) (by omega)
        omega
      · exact heq
      · exfalso
        have : 4 ^ choose_log2_twradix (N : Int) ≤ 4 ^ (k - 1) :=
          Nat.pow_le_pow_right (by decide) (by omega)
        omega
    obtain ⟨r1, r2, r3, r4⟩ :=
      sqrt_log_of_bounds N (choose_log2_twradix (N : Int)) h1 h2 h3
    refine ⟨h1, by exact_mod_cast h2, by exact_mod_cast h3, ?_, i1, i2, ?_, ?_, ?_, ?_⟩
    · intro k hk hlo hhi
      exact huniq k hk (by exact_mod_cast hlo) (by exact_mod_cast hhi)
    · simpa using r1
    · simpa using r2
    · rintro ⟨j, hj⟩
      have hj' : N = 4 ^ j := by exact_mod_cast hj
      have hjK : j + 1 = choose_log2_twradix (N : Int) :=
        huniq (j + 1) (by omega) (by simp [hj']) (by
          rw [hj']
          exact Nat.pow_lt_pow_right (by decide) (by omega))
      have : N = 4 ^ (choose_log2_twradix (N : Int) - 1) := by
        rw [← hjK]
        simpa using hj'
      simpa using r3 this
    · intro hnp
      have : N ≠ 4 ^ (choose_log2_twradix (N : Int) - 1) := by
        intro hNeq
        exact hnp ⟨choose_log2_twradix (N : Int) - 1, by exact_mod_cast hNeq⟩
      simpa using r4 this

/-- Values of `choose_log2_twradix` at a few sizes: 0 at 0 and at -5, 1 at 1
and at 3, 2 at 4 and at 15, 3 at 16, 9 at 65536. -/
theorem choose_log2_twradix_value_witness :
    choose_log2_twradix 0 = 0 ∧ choose_log2_twradix (-5) = 0 ∧
    choose_log2_twradix 1 = 1 ∧ choose_log2_twradix 3 = 1 ∧
    choose_log2_twradix 4 = 2 ∧ choose_log2_twradix 15 = 2 ∧
    choose_log2_twradix 16 = 3 ∧ choose_log2_twradix 65536 = 9 :=
  ⟨choose_log2_twradix_value.1 0 (by decide), choose_log2_twradix_value.1 (-5) (by decide),
   ((choose_log2_twradix_value.2 1 (by decide)).2.2.2.1 1 (by decide) (by decide)
      (by decide)).symm,
   ((choose_log2_twradix_value.2 3 (by decide)).2.2.2.1 1 (by decide) (by decide)
      (by decide)).symm,
   ((choose_log2_twradix_value.2 4 (by decide)).2.2.2.1 2 (by decide) (by decide)
      (by decide)).symm,
   ((choose_log2_twradix_value.2 15 (by decide)).2.2.2.1 2 (by decide) (by decide)
      (by decide)).symm,
   ((choose_log2_twradix_value.2 16 (by decide)).2.2.2.1 3 (by decide) (by decide)
      (by decide)).symm,
   ((choose_log2_twradix_value.2 65536 (by decide)).2.2.2.1 9 (by decide) (by decide)
      (by decide)).symm⟩

/-- Counterexample to C20 as stated: under restricted planning the in-place
unbatched problem with `r = 256`, `m = 128` (`r*m = 32768`) is refused by
kind 1 and by kind 2. -/
theorem restricted_neither_kind :
    applicable0 (problem.dftw (sample_problem dftwdec.DECDIT 256 128 1)) = 1 ∧
    applicable (mksolver 1) (problem.dftw (sample_problem dftwdec.DECDIT 256 128 1))
      (sample_planner true) = 0 ∧
    applicable (mksolver 2) (problem.dftw (sample_problem dftwdec.DECDIT 256 128 1))
      (sample_planner true) = 0 := by
  decide

/-- C20, amended. Under restricted planning (`NO_UGLYP` true) the two solver
kinds are never both admissible: for every problem passing the base
admissibility check, with `v` the product `p->m * p->r` as the machine
computes it, kind 1 alone is admissible when `v <= 16384`, kind 2 alone when
`v > 65536`, and neither kind when `16384 < v <= 65536`. -/
theorem restricted_kinds_trichotomy {α β : Type} (p : problem_dftw) (plnr : planner α β)
    (hu : plnr.NO_UGLYP = true) (hb : applicable0 (problem.dftw p) = 1) :
    ¬ (applicable (mksolver 1) (problem.dftw p) plnr = 1 ∧
       applicable (mksolver 2) (problem.dftw p) plnr = 1) ∧
    (imul p.m p.r ≤ 16384 →
      applicable (mksolver 1) (problem.dftw p) plnr = 1 ∧
      applicable (mksolver 2) (problem.dftw p) plnr = 0) ∧
    (65536 < imul p.m p.r →
      applicable (mksolver 1) (problem.dftw p) plnr = 0 ∧
      applicable (mksolver 2) (problem.dftw p) plnr = 1) ∧
    (16384 < imul p.m p.r → imul p.m p.r ≤ 65536 →
      applicable (mksolver 1) (problem.dftw p) plnr = 0 ∧
      applicable (mksolver 2) (problem.dftw p) plnr = 0) := by
  have h1 : applicable (mksolver 1) (problem.dftw p) plnr =
      if imul p.m p.r > 16384 then 0 else 1 := by
    simp [applicable, hb, hu, mksolver]
  have h2 : applicable (mksolver 2) (problem.dftw p) plnr =
      if imul p.m p.r ≤ 65536 then 0 else 1 := by
    simp [applicable, hb, hu, mksolver]
  rw [h1, h2]
  refine ⟨?_, ?_, ?_, ?_⟩
  · rintro ⟨a, b⟩
    split at a
    · exact absurd a (by decide)
    · split at b
      · exact absurd b (by decide)
      · omega
  · intro hv
    rw [if_neg (by omega), if_pos (by omega)]
    exact ⟨rfl, rfl⟩
  · intro hv
    rw [if_pos (by omega), if_neg (by omega)]
    exact ⟨rfl, rfl⟩
  · intro hv1 hv2
    rw [if_pos (by omega), if_pos hv2]
    exact ⟨rfl, rfl⟩

/-- Instances of the amended C20 under restricted planning: `r*m = 16384`
(128 by 128) is accepted by kind 1 only, `r*m = 65537` by kind 2 only, and
`r*m = 32768` (256 by 128) by neither. -/
theorem restricted_kinds_trichotomy_witness :
    (applicable (mksolver 1) (problem.dftw (sample_problem dftwdec.DECDIT 128 128 1))
        (sample_planner true) = 1 ∧
      applicable (mksolver 2) (problem.dftw (sample_problem dftwdec.DECDIT 128 128 1))
        (sample_planner true) = 0) ∧
    (applicable (mksolver 1) (problem.dftw (sample_problem dftwdec.DECDIT 65537 1 1))
        (sample_planner true) = 0 ∧
      applicable (mksolver 2) (problem.dftw (sample_problem dftwdec.DECDIT 65537 1 1))
        (sample_planner true) = 1) ∧
    (applicable (mksolver 1) (problem.dftw (sample_problem dftwdec.DECDIT 256 128 1))
        (sample_planner true) = 0 ∧
      applicable (mksolver 2) (problem.dftw (sample_problem dftwdec.DECDIT 256 128 1))
        (sample_planner true) = 0) :=
  ⟨(restricted_kinds_trichotomy (sample_problem dftwdec.DECDIT 128 128 1) (sample_planner true)
      rfl (by decide)).2.1 (by decide),
   (restricted_kinds_trichotomy (sample_problem dftwdec.DECDIT 65537 1 1) (sample_planner true)
      rfl (by decide)).2.2.1 (by decide),
   (restricted_kinds_trichotomy (sample_problem dftwdec.DECDIT 256 128 1) (sample_planner true)
      rfl (by decide)).2.2.2 (by decide) (by decide)⟩

/-! ## Plan construction: success and failure -/

/-- C14. Plan construction succeeds iff admissible and the child is planned:
for a solver of either registered kind (and of any kind), `mkplan` returns a
plan exactly when
`applicable` accepts the problem and the planner returns a child plan for
the sub-problem; an inadmissible problem sends no request to the planner; an
admissible one sends exactly the one request for the sub-problem, and a
failed request makes `mkplan` return no plan; a returned plan carries the
problem's `r`, `m` and `s`, holds that child plan, and has the table builder
and the kernel of its kind. -/
theorem mkplan_iff {α β : Type} [Ring β] (ego : S) (p_ : problem) (plnr : planner α β) :
    ((∃ pln, (mkplan ego p_ plnr).ret = some pln) ↔
      (applicable ego p_ plnr ≠ 0 ∧
        ∃ p cld, p_ = problem.dftw p ∧
          plnr.mkplan_d (mkproblem_dft_d (mktensor_1d p.r (p.m * p.s) (p.m * p.s))
            (mktensor_1d p.m p.s p.s) p.rio p.iio p.rio p.iio) = some cld)) ∧
    (applicable ego p_ plnr = 0 →
      (mkplan ego p_ plnr).requests = [] ∧ (mkplan ego p_ plnr).ret = none) ∧
    (∀ p, applicable ego p_ plnr ≠ 0 → p_ = problem.dftw p →
      (mkplan ego p_ plnr).requests =
        [mkproblem_dft_d (mktensor_1d p.r (p.m * p.s) (p.m * p.s))
          (mktensor_1d p.m p.s p.s) p.rio p.iio p.rio p.iio] ∧
      (plnr.mkplan_d (mkproblem_dft_d (mktensor_1d p.r (p.m * p.s) (p.m * p.s))
          (mktensor_1d p.m p.s p.s) p.rio p.iio p.rio p.iio) = none →
        (mkplan ego p_ plnr).ret = none)) ∧
    (∀ pln, (mkplan ego p_ plnr).ret = some pln →
      ∃ p cld, p_ = problem.dftw p ∧
        plnr.mkplan_d (mkproblem_dft_d (mktensor_1d p.r (p.m * p.s) (p.m * p.s))
          (mktensor_1d p.m p.s p.s) p.rio p.iio p.rio p.iio) = some cld ∧
        pln.r = p.r ∧ pln.m = p.m ∧ pln.s = p.s ∧ pln.cld = cld ∧ pln.slv = ego ∧
        (ego.kind = 1 → pln.mktwiddle = some mktwiddle_fn.mktwiddle1 ∧
          pln.bytwiddle = some bytwiddle_fn.bytwiddle1) ∧
        (ego.kind = 2 → pln.mktwiddle = some mktwiddle_fn.mktwiddle2 ∧
          pln.bytwiddle = some bytwiddle_fn.bytwiddle2)) := by
  refine ⟨⟨?_, ?_⟩, ?_, ?_, ?_⟩
  · rintro ⟨pln, h⟩
    obtain ⟨p, cld, hp, hc, -⟩ := mkplan_ret_some ego p_ plnr pln h
    refine ⟨?_, p, cld, hp, hc⟩
    intro h0
    simp [mkplan, h0] at h
  · rintro ⟨ha, p, cld, rfl, hc⟩
    simp [mkplan, ha, hc]
  · intro h0
    simp [mkplan, h0]
  · intro p ha hp
    subst hp
    constructor
    · unfold mkplan
      rw [if_neg ha]
      simp only
      split <;> rfl
    · intro hc
      simp [mkplan, ha, hc]
  · intro pln h
    obtain ⟨p, cld, hp, hc, rfl⟩ := mkplan_ret_some ego p_ plnr pln h
    refine ⟨p, cld, hp, hc, rfl, rfl, rfl, rfl, rfl, ?_, ?_⟩
    · intro hk
      simp [hk]
    · intro hk
      simp [hk]

/-- Instances of C14 on the 3 by 5 sample problem. With a planner that
answers, kind 1 gets a plan with `r = 3`, `m = 5`, `s = 1`, the child plan,
`mktwiddle1` and `bytwiddle1`, after one request; with a planner that has no
child plan, kind 2 gets no plan after one request; a batched problem gets no
plan and no request is sent. -/
theorem mkplan_iff_witness :
    (∃ pln, (mkplan (mksolver 1) (problem.dftw (sample_problem dftwdec.DECDIT 3 5 1))
        (sample_planner true)).ret = some pln ∧
      pln.r = 3 ∧ pln.m = 5 ∧ pln.s = 1 ∧
      pln.mktwiddle = some mktwiddle_fn.mktwiddle1 ∧
      pln.bytwiddle = some bytwiddle_fn.bytwiddle1 ∧
      (mkplan (mksolver 1) (problem.dftw (sample_problem dftwdec.DECDIT 3 5 1))
        (sample_planner true)).requests.length = 1) ∧
    ((mkplan (mksolver 2) (problem.dftw (sample_problem dftwdec.DECDIF 3 5 1))
        (⟨false, fun _ => none⟩ : planner Int Int)).ret = none ∧
      (mkplan (mksolver 2) (problem.dftw (sample_problem dftwdec.DECDIF 3 5 1))
        (⟨false, fun _ => none⟩ : planner Int Int)).requests.length = 1) ∧
    ((mkplan (mksolver 1) (problem.dftw ⟨dftwdec.DECDIT, 3, 5, 1, 1, 2, 0, 0, 0, 1⟩)
        (sample_planner false)).requests = [] ∧
      (mkplan (mksolver 1) (problem.dftw ⟨dftwdec.DECDIT, 3, 5, 1, 1, 2, 0, 0, 0, 1⟩)
        (sample_planner false)).ret = none) := by
  refine ⟨?_, ?_, ?_⟩
  · have key : ∀ pln : P Int Int,
        (mkplan (mksolver 1) (problem.dftw (sample_problem dftwdec.DECDIT 3 5 1))
          (sample_planner true)).ret = some pln →
        pln.r = 3 ∧ pln.m = 5 ∧ pln.s = 1 ∧
        pln.mktwiddle = some mktwiddle_fn.mktwiddle1 ∧
        pln.bytwiddle = some bytwiddle_fn.bytwiddle1 := by
      intro pln hpln
      obtain ⟨p, cld, hp, -, hr, hm, hs, -, -, h1, -⟩ :=
        (mkplan_iff (mksolver 1) _ (sample_planner true)).2.2.2 pln hpln
      have e := problem.dftw.inj hp
      subst e
      exact ⟨hr, hm, hs, (h1 rfl).1, (h1 rfl).2⟩
    obtain ⟨a, b, c, d, e⟩ := key _ rfl
    refine ⟨_, rfl, a, b, c, d, e, ?_⟩
    rw [((mkplan_iff (mksolver 1) _ (sample_planner true)).2.2.1
      (sample_problem dftwdec.DECDIT 3 5 1) (by decide) rfl).1]
    rfl
  · have h := (mkplan_iff (mksolver 2) (problem.dftw (sample_problem dftwdec.DECDIF 3 5 1))
      (⟨false, fun _ => none⟩ : planner Int Int)).2.2.1
      (sample_problem dftwdec.DECDIF 3 5 1) (by decide) rfl
    refine ⟨h.2 rfl, ?_⟩
    rw [h.1]
    rfl
  · exact (mkplan_iff (mksolver 1) (problem.dftw ⟨dftwdec.DECDIT, 3, 5, 1, 1, 2, 0, 0, 0, 1⟩)
      (sample_planner false)).2.1 (by decide)

/-! ## Wake and sleep -/

/-- The plan `awake` leaves and the calls it makes, by table builder. -/
theorem awake_order_aux {α β : Type} (T : trig α) (tw : twiddle_awake_fn α) (ego ego' : P α β)
    (flg : Int) (ev : List event) (h : awake T tw ego flg = some (ego', ev)) :
    ∃ rest, ev = event.cld_awake flg :: rest ∧
      ((ego.mktwiddle = some mktwiddle_fn.mktwiddle1 ∧
          rest = mktwiddle1_calls ego flg ∧ ego' = mktwiddle1 tw ego flg) ∨
       (ego.mktwiddle = some mktwiddle_fn.mktwiddle2 ∧
          rest = mktwiddle2_calls ego flg ∧ ego' = mktwiddle2 T ego flg)) := by
  unfold awake call_mktwiddle at h
  split at h
  · next h1 =>
    simp only [Option.map_some', Option.some.injEq, Prod.mk.injEq] at h
    obtain ⟨rfl, rfl⟩ := h
    exact ⟨_, rfl, Or.inl ⟨h1, rfl, rfl⟩⟩
  · next h2 =>
    simp only [Option.map_some', Option.some.injEq, Prod.mk.injEq] at h
    obtain ⟨rfl, rfl⟩ := h
    exact ⟨_, rfl, Or.inr ⟨h2, rfl, rfl⟩⟩
  · simp at h

/-- Counterexample to C13 as stated: waking the 2 by 2 plan of kind 2 calls
the child's `awake` and then allocates the two tables; putting it to sleep
calls the child's `awake` first as well and frees the two tables afterwards,
so the release does not come before the child is put to sleep. -/
theorem sleep_child_first :
    ∃ pw ps,
      awake trig4 (spec_twiddle_awake trig4) sample_P2 1 =
        some (pw, [event.cld_awake 1, event.malloc 8, event.malloc 2]) ∧
      awake trig4 (spec_twiddle_awake trig4) pw 0 =
        some (ps, [event.cld_awake 0, event.ifree0 true, event.ifree0 true]) ∧
      ¬ (List.indexOf (event.ifree0 true)
            [event.cld_awake 0, event.ifree0 true, event.ifree0 true] <
          List.indexOf (event.cld_awake 0)
            [event.cld_awake 0, event.ifree0 true, event.ifree0 true]) :=
  ⟨_, _, rfl, rfl, by decide⟩

/-- C13, amended. Wake/sleep ordering: on wake the child plan is awakened
before this level's twiddle table is built, and on sleep the two steps are
performed in the same order: the child plan is put to sleep first and this
level's twiddle table is released afterwards. Every call of `awake` that
returns has called `AWAKE (ego->cld, flg)` first and the table builder of the
plan second: `twiddle_awake` with the same flag for `mktwiddle1`, two `MALLOC`
(flag not 0) or two `ifree0` (flag 0) for `mktwiddle2`. -/
theorem awake_order {α β : Type} (T : trig α) (tw : twiddle_awake_fn α) (ego ego' : P α β)
    (flg : Int) (ev : List event) (h : awake T tw ego flg = some (ego', ev)) :
    ∃ rest, ev = event.cld_awake flg :: rest ∧
      ((ego.mktwiddle = some mktwiddle_fn.mktwiddle1 ∧
          rest = [event.twiddle_awake flg (ego.r * ego.m) ego.r ego.m] ∧
          ego' = mktwiddle1 tw ego flg) ∨
       (ego.mktwiddle = some mktwiddle_fn.mktwiddle2 ∧ flg ≠ 0 ∧
          (∃ c0 c1, rest = [event.malloc c0, event.malloc c1]) ∧
          ego' = mktwiddle2 T ego flg) ∨
       (ego.mktwiddle = some mktwiddle_fn.mktwiddle2 ∧ flg = 0 ∧
          rest = [event.ifree0 ego.W0.isSome, event.ifree0 ego.W1.isSome] ∧
          ego' = mktwiddle2 T ego flg ∧ ego'.W0 = none ∧ ego'.W1 = none)) := by
  unfold awake call_mktwiddle at h
  split at h
  · next h1 =>
    simp only [Option.map_some', Option.some.injEq, Prod.mk.injEq] at h
    obtain ⟨rfl, rfl⟩ := h
    exact ⟨_, rfl, Or.inl ⟨h1, rfl, rfl⟩⟩
  · next h2 =>
    simp only [Option.map_some', Option.some.injEq, Prod.mk.injEq] at h
    obtain ⟨rfl, rfl⟩ := h
    refine ⟨_, rfl, Or.inr ?_⟩
    by_cases hflg : flg = 0
    · refine Or.inr ⟨h2, hflg, ?_, rfl, ?_, ?_⟩
      · simp [mktwiddle2_calls, hflg]
      · simp [mktwiddle2, hflg]
      · simp [mktwiddle2, hflg]
    · refine Or.inl ⟨h2, hflg, ?_, rfl⟩
      simp only [mktwiddle2_calls, if_pos hflg]
      exact ⟨_, _, rfl⟩
  · simp at h

/-- Instances of the amended C13 on the 2 by 2 plan of kind 2: the calls of
a wake are `AWAKE`, `MALLOC`, `MALLOC`, the calls of the sleep that follows
are `AWAKE`, `ifree0`, `ifree0`. -/
theorem awake_order_witness :
    ∃ pw ps,
      awake trig4 (spec_twiddle_awake trig4) sample_P2 1 =
        some (pw, [event.cld_awake 1, event.malloc 8, event.malloc 2]) ∧
      awake trig4 (spec_twiddle_awake trig4) pw 0 =
        some (ps, [event.cld_awake 0, event.ifree0 true, event.ifree0 true]) ∧
      (∃ rest, [event.cld_awake 0, event.ifree0 true, event.ifree0 true] =
        event.cld_awake 0 :: rest) ∧
      ps.W0 = none ∧ ps.W1 = none := by
  have key : ∀ (pw ps : P Int Int) (ev : List event),
      awake trig4 (spec_twiddle_awake trig4) pw 0 = some (ps, ev) →
      ∃ rest, ev = event.cld_awake 0 :: rest := by
    intro pw ps ev h
    obtain ⟨rest, hrest, -⟩ := awake_order trig4 (spec_twiddle_awake trig4) pw ps 0 ev h
    exact ⟨rest, hrest⟩
  exact ⟨mktwiddle2 trig4 sample_P2 1, _, rfl, rfl,
    key (mktwiddle2 trig4 sample_P2 1) _ _ rfl, rfl, rfl⟩

/-! ## Executions of an awake plan return -/

/-- The kernel `bytwiddle1` returns on a table of `r * m` pairs. -/
theorem bytwiddle1_some {α β : Type} [Add α] [Sub α] [Mul α] (ego : P α β) (W : List α)
    (b : buf α) (htd : ego.td = some { W := W })
    (hW : (W.length : Int) = 2 * (ego.r * ego.m)) :
    ∃ out, bytwiddle1 ego b = some out := by
  rw [bytwiddle1_eq ego W b htd]
  exact twiddle_loops_some _ cmul ego.r ego.m ego.s b (fun j k hj1 hj2 hk1 hk2 => by
    obtain ⟨wr, wi, -, -, hw⟩ := bytwiddle1_w_some W ego.r ego.m j k hW hj1 hj2 hk1 hk2
    exact ⟨_, hw⟩)

/-- The kernel `bytwiddle2` returns on the tables `mktwiddle2` builds. -/
theorem bytwiddle2_some {α β : Type} [Add α] [Sub α] [Mul α] (T : trig α) (ego : P α β)
    (flg : Int) (hflg : flg ≠ 0) (b : buf α) :
    ∃ out, bytwiddle2 (mktwiddle2 T ego flg) b = some out := by
  obtain ⟨K, W0, W1, hK, h0, h1, hr, hm, -, -, hsplit⟩ := mktwiddle2_tables T ego flg hflg
  rw [bytwiddle2_eq _ K W0 W1 b hK h0 h1]
  refine twiddle_loops_some _ cmul_conj _ _ _ b (fun j k hj1 hj2 hk1 hk2 => ?_)
  rw [hr] at hj2
  rw [hm] at hk2
  obtain ⟨wr0, wi0, wr1, wi1, -, -, -, -, -, -, -, -, hw⟩ :=
    hsplit (j * k).toNat (product_index_lt ego.r ego.m j k (by omega) hj2 (by omega) hk2)
  exact ⟨_, hw⟩

/-- The kernel call through the `bytwiddle` slot returns when the kernel
stored there does. -/
theorem call_bytwiddle_some {α β : Type} [Add α] [Sub α] [Mul α] (ego : P α β) (st : exec α)
    (h : (ego.bytwiddle = some bytwiddle_fn.bytwiddle1 ∧
          ∃ out, bytwiddle1 ego (st.rio, st.iio) = some out) ∨
        (ego.bytwiddle = some bytwiddle_fn.bytwiddle2 ∧
          ∃ out, bytwiddle2 ego (st.rio, st.iio) = some out)) :
    ∃ o, call_bytwiddle ego st = some o := by
  rcases h with ⟨hb, out, hout⟩ | ⟨hb, out, hout⟩
  · exact ⟨{ rio := out.1, iio := out.2, calls := st.calls ++ [call.bytwiddle] },
      by simp [call_bytwiddle, hb, hout]⟩
  · exact ⟨{ rio := out.1, iio := out.2, calls := st.calls ++ [call.bytwiddle] },
      by simp [call_bytwiddle, hb, hout]⟩

/-- C19. Destroying a plan returned by `mkplan` right after a wake: for kind
2 both split tables are allocated and the assertion of `destroy` fails; for
kind 1 the wake has stored the answer of `twiddle_awake` in `td` and has left
`W0` and `W1` null, so the assertion, which reads `W0` and `W1` only, holds
and `destroy` goes on to destroy the child plan. -/
theorem destroy_while_awake {α β : Type} [Ring β] (slv : S) (p_ : problem)
    (plnr : planner α β) (pln pw : P α β) (T : trig α) (tw : twiddle_awake_fn α) (flg : Int)
    (ev : List event) (h : (mkplan slv p_ plnr).ret = some pln) (hflg : flg ≠ 0)
    (hw : awake T tw pln flg = some (pw, ev)) :
    (slv.kind = 2 → pw.W0 ≠ none ∧ pw.W1 ≠ none ∧ destroy pw = none) ∧
    (slv.kind = 1 →
      pw.td = tw flg none (pln.r * pln.m) pln.r pln.m ∧ pw.W0 = none ∧ pw.W1 = none ∧
      destroy pw = some [event.plan_destroy_internal]) := by
  obtain ⟨p, cld, -, -, hpln⟩ := mkplan_ret_some slv p_ plnr pln h
  obtain ⟨rest, -, hcase⟩ := awake_order_aux T tw pln pw flg ev hw
  constructor
  · intro hk
    have hm : pln.mktwiddle = some mktwiddle_fn.mktwiddle2 := by
      rw [hpln]
      simp [hk]
    rcases hcase with ⟨h1, -⟩ | ⟨-, -, he⟩
    · rw [hm] at h1
      exact absurd h1 (by simp)
    · subst he
      rw [mktwiddle2_build T pln flg hflg]
      simp [destroy]
  · intro hk
    have hm : pln.mktwiddle = some mktwiddle_fn.mktwiddle1 := by
      rw [hpln]
      simp [hk]
    rcases hcase with ⟨-, -, he⟩ | ⟨h2, -⟩
    · subst he
      rw [hpln]
      simp [mktwiddle1, destroy]
    · rw [hm] at h2
      exact absurd h2 (by simp)

/-- Instances of C19 on the 2 by 2 sample problem, right after a wake with
the table facility of the data model: the plan of kind 1 holds the full
table in `td` and `destroy` passes its assertion; the plan of kind 2 holds
both split tables and `destroy` fails its assertion. -/
theorem destroy_while_awake_witness :
    (∃ pln pw ev,
      (mkplan (mksolver 1) (problem.dftw (sample_problem dftwdec.DECDIT 2 2 1))
        (sample_planner false)).ret = some pln ∧
      awake trig4 (spec_twiddle_awake trig4) pln 1 = some (pw, ev) ∧
      pw.td = some sample_td ∧
      destroy pw = some [event.plan_destroy_internal]) ∧
    (∃ pln pw ev,
      (mkplan (mksolver 2) (problem.dftw (sample_problem dftwdec.DECDIT 2 2 1))
        (sample_planner false)).ret = some pln ∧
      awake trig4 (spec_twiddle_awake trig4) pln 1 = some (pw, ev) ∧
      destroy pw = none) := by
  have key1 : ∀ (pln pw : P Int Int) (ev : List event),
      (mkplan (mksolver 1) (problem.dftw (sample_problem dftwdec.DECDIT 2 2 1))
        (sample_planner false)).ret = some pln →
      awake trig4 (spec_twiddle_awake trig4) pln 1 = some (pw, ev) →
      destroy pw = some [event.plan_destroy_internal] :=
    fun pln pw ev h hw =>
      ((destroy_while_awake (mksolver 1) _ _ pln pw trig4 _ 1 ev h (by decide) hw).2 rfl).2.2.2
  have key2 : ∀ (pln pw : P Int Int) (ev : List event),
      (mkplan (mksolver 2) (problem.dftw (sample_problem dftwdec.DECDIT 2 2 1))
        (sample_planner false)).ret = some pln →
      awake trig4 (spec_twiddle_awake trig4) pln 1 = some (pw, ev) →
      destroy pw = none :=
    fun pln pw ev h hw =>
      ((destroy_while_awake (mksolver 2) _ _ pln pw trig4 _ 1 ev h (by decide) hw).1 rfl).2.2
  exact ⟨⟨_, _, _, rfl, rfl, rfl, key1 _ _ _ rfl rfl⟩, ⟨_, _, _, rfl, rfl, key2 _ _ _ rfl rfl⟩⟩

/-! ## Lifecycle -/

/-- Entry `jk` of the full table of the data model. -/
theorem full_table_w {α : Type} (T : trig α) (n : Int) (jk : Nat) (h : (jk : Int) < n) :
    bytwiddle1_w (full_table T n) jk = some (T.cos2pi jk n, T.sin2pi jk n) := by
  have hlt : jk < n.toNat := by omega
  have hg := fill_pairs_get (fun i => T.cos2pi i n) (fun i => T.sin2pi i n) n.toNat 0 jk hlt
  simp only [zero_add] at hg
  unfold bytwiddle1_w full_table
  rw [hg.1, hg.2]

/-- Entry `jk` of the table of conjugate pairs. -/
theorem conj_table_w {α : Type} [Neg α] (T : trig α) (n : Int) (jk : Nat)
    (h : (jk : Int) < n) :
    bytwiddle1_w (conj_table T n) jk = some (T.cos2pi jk n, -T.sin2pi jk n) := by
  have hlt : jk < n.toNat := by omega
  have hg := fill_pairs_get (fun i => T.cos2pi i n) (fun i => -T.sin2pi i n) n.toNat 0 jk hlt
  simp only [zero_add] at hg
  unfold bytwiddle1_w conj_table
  rw [hg.1, hg.2]

/-- Over the reals, with exact cosines and sines, the twiddle that
`bytwiddle2` rebuilds from the split tables of radix `2^K` for size `n` at an
index `jk < n` is `(cos (2 pi jk / n), sin (2 pi jk / n))`. -/
theorem split_w_real (T : trig ℝ)
    (hcos : ∀ i n : Int, T.cos2pi i n = Real.cos (2 * Real.pi * (i : ℝ) / (n : ℝ)))
    (hsin : ∀ i n : Int, T.sin2pi i n = Real.sin (2 * Real.pi * (i : ℝ) / (n : ℝ)))
    (n : Int) (K jk : Nat) (hjk : (jk : Int) < n) :
    bytwiddle2_w
      (fill_pairs (fun i => T.cos2pi i n) (fun i => T.sin2pi i n)
        (((1 <<< K : Nat) : Int)).toNat 0)
      (fill_pairs (fun i => T.cos2pi (i * ((1 <<< K : Nat) : Int)) n)
        (fun i => T.sin2pi (i * ((1 <<< K : Nat) : Int)) n)
        ((n + ((1 <<< K : Nat) : Int) - 1).tdiv ((1 <<< K : Nat) : Int)).toNat 0)
      K ((1 <<< K) - 1) jk =
    some (Real.cos (2 * Real.pi * (jk : ℝ) / (n : ℝ)),
          Real.sin (2 * Real.pi * (jk : ℝ) / (n : ℝ))) := by
  obtain ⟨wr0, wi0, wr1, wi1, -, -, -, -, e0, e1, e2, e3, hw⟩ := bytwiddle2_w_split T n K jk hjk
  rw [hw, e0, e1, e2, e3, hcos, hcos, hsin, hsin, ← Real.cos_add, ← Real.sin_add,
    angle_split _ (jk / 2 ^ K) (2 ^ K) (jk % 2 ^ K) jk (Nat.div_add_mod' _ _)]

/-- Over the reals, with exact cosines and sines and a stride other than 0:
`bytwiddle1` on the full table of the data model and `bytwiddle2` on the
tables of `mktwiddle2` both return; both leave the offsets outside the
iteration space alone; at the offset of iteration `(j, k)` the first leaves
the product of the element with `w = (cos, sin) (2 pi jk / n)` and the second
the product with the conjugate of `w`. -/
theorem kernels_real_values {β : Type} (T : trig ℝ)
    (hcos : ∀ i n : Int, T.cos2pi i n = Real.cos (2 * Real.pi * (i : ℝ) / (n : ℝ)))
    (hsin : ∀ i n : Int, T.sin2pi i n = Real.sin (2 * Real.pi * (i : ℝ) / (n : ℝ)))
    (ego : P ℝ β) (flg : Int) (hflg : flg ≠ 0) (b : buf ℝ)
    (hs : ego.s ≠ 0) :
    ∃ o1 o2,
      bytwiddle1 { ego with td := some { W := full_table T (ego.r * ego.m) } } b = some o1 ∧
      bytwiddle2 (mktwiddle2 T ego flg) b = some o2 ∧
      (∀ x, (∀ j k, 1 ≤ j → j < ego.r → 1 ≤ k → k < ego.m → x ≠ ego.s * (j * ego.m + k)) →
        (o1.1 x = b.1 x ∧ o1.2 x = b.2 x) ∧ (o2.1 x = b.1 x ∧ o2.2 x = b.2 x)) ∧
      ∀ j k : Int, 1 ≤ j → j < ego.r → 1 ≤ k → k < ego.m →
        (o1.1 (ego.s * (j * ego.m + k)), o1.2 (ego.s * (j * ego.m + k))) =
          cmul (b.1 (ego.s * (j * ego.m + k)), b.2 (ego.s * (j * ego.m + k)))
            (Real.cos (2 * Real.pi * ((j * k : Int) : ℝ) / ((ego.r * ego.m : Int) : ℝ)),
             Real.sin (2 * Real.pi * ((j * k : Int) : ℝ) / ((ego.r * ego.m : Int) : ℝ))) ∧
        (o2.1 (ego.s * (j * ego.m + k)), o2.2 (ego.s * (j * ego.m + k))) =
          cmul_conj (b.1 (ego.s * (j * ego.m + k)), b.2 (ego.s * (j * ego.m + k)))
            (Real.cos (2 * Real.pi * ((j * k : Int) : ℝ) / ((ego.r * ego.m : Int) : ℝ)),
             Real.sin (2 * Real.pi * ((j * k : Int) : ℝ) / ((ego.r * ego.m : Int) : ℝ))) := by
  have hcast : ∀ j k : Int, 1 ≤ j → 1 ≤ k → ((((j * k).toNat : Nat) : Int) : ℝ) =
      ((j * k : Int) : ℝ) := by
    intro j k hj hk
    rw [Int.toNat_of_nonneg (mul_nonneg (by omega) (by omega))]
  -- the first kernel
  have htw1 : ∀ j k : Int, 1 ≤ j → j < ego.r → 1 ≤ k → k < ego.m →
      bytwiddle1_w (full_table T (ego.r * ego.m)) (j * k).toNat =
        some (Real.cos (2 * Real.pi * ((j * k : Int) : ℝ) / ((ego.r * ego.m : Int) : ℝ)),
              Real.sin (2 * Real.pi * ((j * k : Int) : ℝ) / ((ego.r * ego.m : Int) : ℝ))) := by
    intro j k hj1 hj2 hk1 hk2
    rw [full_table_w T _ _ (product_index_lt ego.r ego.m j k (by omega) hj2 (by omega) hk2),
      hcos, hsin, hcast j k hj1 hk1]
  have e1 := bytwiddle1_eq ({ ego with td := some { W := full_table T (ego.r * ego.m) } })
    (full_table T (ego.r * ego.m)) b rfl
  simp only at e1
  obtain ⟨o1, ho1⟩ := twiddle_loops_some
    (fun j k => bytwiddle1_w (full_table T (ego.r * ego.m)) (j * k).toNat) cmul
    ego.r ego.m ego.s b (fun j k hj1 hj2 hk1 hk2 => ⟨_, htw1 j k hj1 hj2 hk1 hk2⟩)
  -- the second kernel
  obtain ⟨K, W0, W1, hK, h0, h1, hr2, hm2, hs2, hKeq, -⟩ := mktwiddle2_tables T ego flg hflg
  have hbuild := mktwiddle2_build T ego flg hflg
  have hW0 : W0 = fill_pairs (fun i => T.cos2pi i (ego.r * ego.m))
      (fun i => T.sin2pi i (ego.r * ego.m)) (((1 <<< K : Nat) : Int)).toNat 0 := by
    rw [hbuild] at h0
    rw [hKeq]
    exact (Option.some.inj h0).symm
  have hW1 : W1 = fill_pairs
      (fun i => T.cos2pi (i * ((1 <<< K : Nat) : Int)) (ego.r * ego.m))
      (fun i => T.sin2pi (i * ((1 <<< K : Nat) : Int)) (ego.r * ego.m))
      ((ego.r * ego.m + ((1 <<< K : Nat) : Int) - 1).tdiv ((1 <<< K : Nat) : Int)).toNat 0 := by
    rw [hbuild] at h1
    rw [hKeq]
    exact (Option.some.inj h1).symm
  have htw2 : ∀ j k : Int, 1 ≤ j → j < ego.r → 1 ≤ k → k < ego.m →
      bytwiddle2_w W0 W1 K ((1 <<< K) - 1) (j * k).toNat =
        some (Real.cos (2 * Real.pi * ((j * k : Int) : ℝ) / ((ego.r * ego.m : Int) : ℝ)),
              Real.sin (2 * Real.pi * ((j * k : Int) : ℝ) / ((ego.r * ego.m : Int) : ℝ))) := by
    intro j k hj1 hj2 hk1 hk2
    have hjk := product_index_lt ego.r ego.m j k (by omega) hj2 (by omega) hk2
    have hc : (((j * k).toNat : Nat) : ℝ) = ((j * k : Int) : ℝ) := by
      rw [← hcast j k hj1 hk1, Int.cast_natCast]
    rw [hW0, hW1, split_w_real T hcos hsin (ego.r * ego.m) K (j * k).toNat hjk, hc]
  have e2 := bytwiddle2_eq (mktwiddle2 T ego flg) K W0 W1 b hK h0 h1
  rw [hr2, hm2, hs2] at e2
  obtain ⟨o2, ho2⟩ := twiddle_loops_some
    (fun j k => bytwiddle2_w W0 W1 K ((1 <<< K) - 1) (j * k).toNat) cmul_conj
    ego.r ego.m ego.s b (fun j k hj1 hj2 hk1 hk2 => ⟨_, htw2 j k hj1 hj2 hk1 hk2⟩)
  refine ⟨o1, o2, e1.trans ho1, e2.trans ho2, ?_, ?_⟩
  · intro x hx
    exact ⟨twiddle_loops_frame _ _ ego.r ego.m ego.s b o1 ho1 x hx,
      twiddle_loops_frame _ _ ego.r ego.m ego.s b o2 ho2 x hx⟩
  · intro j k hj1 hj2 hk1 hk2
    exact ⟨twiddle_loops_val _ cmul ego.r ego.m ego.s hs b o1 ho1 j k hj1 hj2 hk1 hk2 _
        (htw1 j k hj1 hj2 hk1 hk2),
      twiddle_loops_val _ cmul_conj ego.r ego.m ego.s hs b o2 ho2 j k hj1 hj2 hk1 hk2 _
        (htw2 j k hj1 hj2 hk1 hk2)⟩

/-- Counterexample to C11 as stated, in exact real arithmetic: for
`r = m = 2`, stride 1 and buffers holding `1 + 0i` everywhere, `bytwiddle1`
on the full table `(cos, sin) (2 pi i / 4)` leaves the imaginary part 1 at
offset 3 and `bytwiddle2` on the split tables of `mktwiddle2` leaves -1
there: the two output buffers differ. -/
theorem kernels_differ_on_data_model_table :
    ∃ o1 o2 : buf ℝ,
      bytwiddle1
        { (plain_P ℝ 2 2 1 : P ℝ Int) with
          td := some { W := (full_table
            (⟨fun i n => Real.cos (2 * Real.pi * (i : ℝ) / (n : ℝ)),
              fun i n => Real.sin (2 * Real.pi * (i : ℝ) / (n : ℝ))⟩ : trig ℝ) 4) } }
        (fun _ => 1, fun _ => 0) = some o1 ∧
      bytwiddle2
        (mktwiddle2
          (⟨fun i n => Real.cos (2 * Real.pi * (i : ℝ) / (n : ℝ)),
            fun i n => Real.sin (2 * Real.pi * (i : ℝ) / (n : ℝ))⟩ : trig ℝ)
          (plain_P ℝ 2 2 1) 1)
        (fun _ => 1, fun _ => 0) = some o2 ∧
      o1.2 3 = 1 ∧ o2.2 3 = -1 ∧ o1 ≠ o2 := by
  obtain ⟨o1, o2, h1, h2, -, hv⟩ := kernels_real_values
    (⟨fun i n => Real.cos (2 * Real.pi * (i : ℝ) / (n : ℝ)),
      fun i n => Real.sin (2 * Real.pi * (i : ℝ) / (n : ℝ))⟩ : trig ℝ)
    (fun _ _ => rfl) (fun _ _ => rfl) (plain_P ℝ 2 2 1) 1 (by decide) (fun _ => 1, fun _ => 0)
    (by decide)
  obtain ⟨hv1, hv2⟩ := hv 1 1 (by decide) (by decide) (by decide) (by decide)
  have harg : 2 * Real.pi * (((1 : Int) * 1 : Int) : ℝ) /
      (((plain_P ℝ 2 2 1 : P ℝ Int).r * (plain_P ℝ 2 2 1 : P ℝ Int).m : Int) : ℝ) =
      Real.pi / 2 := by
    have : (plain_P ℝ 2 2 1 : P ℝ Int).r * (plain_P ℝ 2 2 1 : P ℝ Int).m = 4 := rfl
    rw [this]
    push_cast
    ring
  have hoff : (plain_P ℝ 2 2 1 : P ℝ Int).s * (1 * (plain_P ℝ 2 2 1 : P ℝ Int).m + 1) = 3 := rfl
  rw [harg, hoff, Real.cos_pi_div_two, Real.sin_pi_div_two] at hv1 hv2
  simp only [cmul, cmul_conj, Prod.mk.injEq] at hv1 hv2
  have a1 : o1.2 3 = 1 := by
    rw [hv1.2]
    norm_num
  have a2 : o2.2 3 = -1 := by
    rw [hv2.2]
    norm_num
  refine ⟨o1, o2, h1, h2, a1, a2, ?_⟩
  intro heq
  rw [heq, a2] at a1
  norm_num at a1

/-- C11, amended. In exact real arithmetic, for every `r`, `m` and a stride
other than 0, `bytwiddle2` on the split tables built by `mktwiddle2` for
`n = r*m` produces the same output buffer as `bytwiddle1` on the full table
of the conjugate pairs `(cos (2 pi i / n), -sin (2 pi i / n))`. On the full
table `(cos, sin)` of the data model the two kernels agree outside the
iteration space only: at the offset of iteration `(j, k)` `bytwiddle1` leaves
the product of the element with `w = (cos, sin) (2 pi jk / n)` and
`bytwiddle2` its product with the conjugate of `w`. -/
theorem kernels_agree_with_conjugate_table {β : Type} (T : trig ℝ)
    (hcos : ∀ i n : Int, T.cos2pi i n = Real.cos (2 * Real.pi * (i : ℝ) / (n : ℝ)))
    (hsin : ∀ i n : Int, T.sin2pi i n = Real.sin (2 * Real.pi * (i : ℝ) / (n : ℝ)))
    (ego : P ℝ β) (flg : Int) (hflg : flg ≠ 0) (b : buf ℝ)
    (hs : ego.s ≠ 0) :
    ∃ o1 o1c o2,
      bytwiddle1 { ego with td := some { W := full_table T (ego.r * ego.m) } } b = some o1 ∧
      bytwiddle1 { ego with td := some { W := conj_table T (ego.r * ego.m) } } b = some o1c ∧
      bytwiddle2 (mktwiddle2 T ego flg) b = some o2 ∧
      o1c = o2 ∧
      (∀ x, (∀ j k, 1 ≤ j → j < ego.r → 1 ≤ k → k < ego.m → x ≠ ego.s * (j * ego.m + k)) →
        o1.1 x = o2.1 x ∧ o1.2 x = o2.2 x) ∧
      ∀ j k : Int, 1 ≤ j → j < ego.r → 1 ≤ k → k < ego.m →
        (o1.1 (ego.s * (j * ego.m + k)), o1.2 (ego.s * (j * ego.m + k))) =
          cmul (b.1 (ego.s * (j * ego.m + k)), b.2 (ego.s * (j * ego.m + k)))
            (Real.cos (2 * Real.pi * ((j * k : Int) : ℝ) / ((ego.r * ego.m : Int) : ℝ)),
             Real.sin (2 * Real.pi * ((j * k : Int) : ℝ) / ((ego.r * ego.m : Int) : ℝ))) ∧
        (o2.1 (ego.s * (j * ego.m + k)), o2.2 (ego.s * (j * ego.m + k))) =
          cmul (b.1 (ego.s * (j * ego.m + k)), b.2 (ego.s * (j * ego.m + k)))
            (cconj
              (Real.cos (2 * Real.pi * ((j * k : Int) : ℝ) / ((ego.r * ego.m : Int) : ℝ)),
               Real.sin (2 * Real.pi * ((j * k : Int) : ℝ) / ((ego.r * ego.m : Int) : ℝ)))) := by
  obtain ⟨o1, o2, h1, h2, hfr, hv⟩ :=
    kernels_real_values T hcos hsin ego flg hflg b hs
  have hconj : ∀ x w : ℝ × ℝ, cmul x (cconj w) = cmul_conj x w := by
    intro x w
    simp only [cmul, cconj, cmul_conj, Prod.mk.injEq]
    constructor <;> ring
  -- the first kernel on the table of conjugates
  have htwc : ∀ j k : Int, 1 ≤ j → j < ego.r → 1 ≤ k → k < ego.m →
      bytwiddle1_w (conj_table T (ego.r * ego.m)) (j * k).toNat =
        some (cconj
          (Real.cos (2 * Real.pi * ((j * k : Int) : ℝ) / ((ego.r * ego.m : Int) : ℝ)),
           Real.sin (2 * Real.pi * ((j * k : Int) : ℝ) / ((ego.r * ego.m : Int) : ℝ)))) := by
    intro j k hj1 hj2 hk1 hk2
    rw [conj_table_w T _ _ (product_index_lt ego.r ego.m j k (by omega) hj2 (by omega) hk2),
      hcos, hsin, Int.toNat_of_nonneg (mul_nonneg (by omega) (by omega))]
    rfl
  have ec := bytwiddle1_eq ({ ego with td := some { W := conj_table T (ego.r * ego.m) } })
    (conj_table T (ego.r * ego.m)) b rfl
  simp only at ec
  obtain ⟨oc, hoc⟩ := twiddle_loops_some
    (fun j k => bytwiddle1_w (conj_table T (ego.r * ego.m)) (j * k).toNat) cmul
    ego.r ego.m ego.s b (fun j k hj1 hj2 hk1 hk2 => ⟨_, htwc j k hj1 hj2 hk1 hk2⟩)
  have hpt : ∀ x, oc.1 x = o2.1 x ∧ oc.2 x = o2.2 x := by
    intro x
    by_cases hx : ∃ j k, 1 ≤ j ∧ j < ego.r ∧ 1 ≤ k ∧ k < ego.m ∧ x = ego.s * (j * ego.m + k)
    · obtain ⟨j, k, hj1, hj2, hk1, hk2, rfl⟩ := hx
      have hc := twiddle_loops_val _ cmul ego.r ego.m ego.s hs b oc hoc j k hj1 hj2 hk1 hk2 _
        (htwc j k hj1 hj2 hk1 hk2)
      rw [hconj, ← (hv j k hj1 hj2 hk1 hk2).2] at hc
      exact ⟨congrArg Prod.fst hc, congrArg Prod.snd hc⟩
    · have hx' : ∀ j k, 1 ≤ j → j < ego.r → 1 ≤ k → k < ego.m → x ≠ ego.s * (j * ego.m + k) :=
        fun j k hj1 hj2 hk1 hk2 he => hx ⟨j, k, hj1, hj2, hk1, hk2, he⟩
      have hc := twiddle_loops_frame _ _ ego.r ego.m ego.s b oc hoc x hx'
      have h2' := (hfr x hx').2
      exact ⟨hc.1.trans h2'.1.symm, hc.2.trans h2'.2.symm⟩
  refine ⟨o1, oc, o2, h1, ec.trans hoc, h2, ?_, ?_, ?_⟩
  · exact Prod.ext (funext fun x => (hpt x).1) (funext fun x => (hpt x).2)
  · intro x hx
    obtain ⟨a, c⟩ := hfr x hx
    exact ⟨a.1.trans c.1.symm, a.2.trans c.2.symm⟩
  · intro j k hj1 hj2 hk1 hk2
    obtain ⟨a, c⟩ := hv j k hj1 hj2 hk1 hk2
    exact ⟨a, by rw [hconj]; exact c⟩

/-- An instance of the amended C11: `r = 3`, `m = 5`, stride 1, exact
cosines and sines, buffers holding `1 + 0i` everywhere. `bytwiddle1` on the
table of conjugate pairs and `bytwiddle2` on the split tables return the same
buffer. -/
theorem kernels_agree_with_conjugate_table_witness :
    ∃ o : buf ℝ,
      bytwiddle1
        { (plain_P ℝ 3 5 1 : P ℝ Int) with
          td := some { W := (conj_table
            (⟨fun i n => Real.cos (2 * Real.pi * (i : ℝ) / (n : ℝ)),
              fun i n => Real.sin (2 * Real.pi * (i : ℝ) / (n : ℝ))⟩ : trig ℝ) 15) } }
        (fun _ => 1, fun _ => 0) = some o ∧
      bytwiddle2
        (mktwiddle2
          (⟨fun i n => Real.cos (2 * Real.pi * (i : ℝ) / (n : ℝ)),
            fun i n => Real.sin (2 * Real.pi * (i : ℝ) / (n : ℝ))⟩ : trig ℝ)
          (plain_P ℝ 3 5 1) 1)
        (fun _ => 1, fun _ => 0) = some o := by
  obtain ⟨o1, o1c, o2, -, hc, h2, he, -, -⟩ := kernels_agree_with_conjugate_table
    (⟨fun i n => Real.cos (2 * Real.pi * (i : ℝ) / (n : ℝ)),
      fun i n => Real.sin (2 * Real.pi * (i : ℝ) / (n : ℝ))⟩ : trig ℝ)
    (fun _ _ => rfl) (fun _ _ => rfl) (plain_P ℝ 3 5 1) 1 (by decide) (fun _ => 1, fun _ => 0)
    (by decide)
  subst he
  exact ⟨o1c, hc, h2⟩

/-! ## What an execution of the plan computes -/

/-- The child plan `dft2_cld` solves the sub-problem `mkplan` requests for
the 2 by 2 problem of stride 1: two in-place transforms of size 2 along the
stride 2. -/
theorem dft2_cld_solves :
    solves_dft (root4 2)
      (mkproblem_dft_d (mktensor_1d 2 (2 * 1) (2 * 1)) (mktensor_1d 2 1 1) 0 1 0 1)
      dft2_cld.apply := by
  intro b v t hv0 hv1 ht0 ht1
  have hv : v = 0 ∨ v = 1 := by
    simp only [mkproblem_dft_d, mktensor_1d] at hv1
    omega
  have ht : t = 0 ∨ t = 1 := by
    simp only [mkproblem_dft_d, mktensor_1d] at ht1
    omega
  rcases hv with rfl | rfl <;> rcases ht with rfl | rfl <;>
    simp [mkproblem_dft_d, mktensor_1d, dft2_cld, csum, cmul, root4, trig4,
      show ¬ ((4 : Int) ∣ 2) by decide] <;>
    constructor <;> ring

/-- One execution of a plan whose child solves the sub-problem of `mkplan`
and whose kernel returns: through `apply_dit` the result is the `m`
transforms of size `r`, along the stride `m*s`, of the buffers the kernel
leaves; through `apply_dif` it is the kernel applied to the `m` transforms of
size `r` of the buffers given. -/
theorem call_apply_stage {α β : Type} [Zero α] [Add α] [Sub α] [Mul α] (w : Int → α × α)
    (ego : P α β) (r m s : Int) (ri ii ro io : Nat)
    (hsolve : solves_dft w
      (mkproblem_dft_d (mktensor_1d r (m * s) (m * s)) (mktensor_1d m s s) ri ii ro io)
      ego.cld.apply)
    (hker : ∀ st, ∃ o, call_bytwiddle ego st = some o) (st : exec α) :
    ∃ out, call_apply ego st = some out ∧
      (ego.apply = apply_fn.apply_dit →
        ∃ y, call_bytwiddle ego st = some y ∧
          ∀ v t : Int, 0 ≤ v → v < m → 0 ≤ t → t < r →
            (out.rio (s * v + m * s * t), out.iio (s * v + m * s * t)) =
              csum r.toNat fun j =>
                cmul (y.rio (s * v + m * s * j), y.iio (s * v + m * s * j)) (w (j * t))) ∧
      (ego.apply = apply_fn.apply_dif →
        call_bytwiddle ego (call_cld_apply ego st) = some out ∧
          ∀ v t : Int, 0 ≤ v → v < m → 0 ≤ t → t < r →
            ((call_cld_apply ego st).rio (s * v + m * s * t),
              (call_cld_apply ego st).iio (s * v + m * s * t)) =
              csum r.toNat fun j =>
                cmul (st.rio (s * v + m * s * j), st.iio (s * v + m * s * j)) (w (j * t))) := by
  have hs : ∀ (b : buf α) (v t : Int), 0 ≤ v → v < m → 0 ≤ t → t < r →
      ((ego.cld.apply b).1 (s * v + m * s * t), (ego.cld.apply b).2 (s * v + m * s * t)) =
        csum r.toNat fun j => cmul (b.1 (s * v + m * s * j), b.2 (s * v + m * s * j)) (w (j * t)) :=
    fun b v t h1 h2 h3 h4 => hsolve b v t h1 h2 h3 h4
  cases hap : ego.apply with
  | apply_dit =>
    obtain ⟨y, hy⟩ := hker st
    refine ⟨call_cld_apply ego y, by simp [call_apply, hap, apply_dit, hy], ?_, ?_⟩
    · intro _
      exact ⟨y, hy, fun v t h1 h2 h3 h4 => hs (y.rio, y.iio) v t h1 h2 h3 h4⟩
    · intro hc
      cases hc
  | apply_dif =>
    obtain ⟨out, hout⟩ := hker (call_cld_apply ego st)
    refine ⟨out, by simp [call_apply, hap, apply_dif, hout], ?_, ?_⟩
    · intro hc
      cases hc
    · intro _
      exact ⟨hout, fun v t h1 h2 h3 h4 => hs (st.rio, st.iio) v t h1 h2 h3 h4⟩

/-- The plan `awake` leaves on a wake of a plan of kind 1 or 2 returned by
`mkplan`: the slot `apply` and the child plan are those of `mkplan`, and the
kernel returns on every buffer. For kind 1 the table facility is assumed to
answer the request with a table of `r*m` pairs. -/
theorem awake_plan_runs {α β : Type} [Ring β] [Add α] [Sub α] [Mul α] (slv : S)
    (p_ : problem) (plnr : planner α β) (pln pw : P α β) (T : trig α) (tw : twiddle_awake_fn α)
    (ev : List event) (h : (mkplan slv p_ plnr).ret = some pln)
    (hkind : slv.kind = 1 ∨ slv.kind = 2)
    (hfac : slv.kind = 1 → ∃ W, tw 1 none (pln.r * pln.m) pln.r pln.m = some { W := W } ∧
      (W.length : Int) = 2 * (pln.r * pln.m))
    (hw : awake T tw pln 1 = some (pw, ev)) :
    pw.apply = pln.apply ∧ pw.cld = pln.cld ∧ ∀ st, ∃ o, call_bytwiddle pw st = some o := by
  obtain ⟨p, cld, -, -, hpln⟩ := mkplan_ret_some slv p_ plnr pln h
  have htd : pln.td = none := by rw [hpln]
  rcases hkind with hk | hk
  · have hm : pln.mktwiddle = some mktwiddle_fn.mktwiddle1 := by
      rw [hpln]
      simp [hk]
    have hb : pln.bytwiddle = some bytwiddle_fn.bytwiddle1 := by
      rw [hpln]
      simp [hk]
    obtain ⟨W, hWt, hWl⟩ := hfac hk
    have hpw : pw = mktwiddle1 tw pln 1 := by
      simp only [awake, call_mktwiddle, hm, Option.map_some', Option.some.injEq,
        Prod.mk.injEq] at hw
      exact hw.1.symm
    subst hpw
    have hptd : (mktwiddle1 tw pln 1).td = some { W := W } := by
      simp [mktwiddle1, htd, hWt]
    exact ⟨rfl, rfl, fun st => call_bytwiddle_some _ st (Or.inl ⟨hb,
      bytwiddle1_some (mktwiddle1 tw pln 1) W (st.rio, st.iio) hptd hWl⟩)⟩
  · have hm : pln.mktwiddle = some mktwiddle_fn.mktwiddle2 := by
      rw [hpln]
      simp [hk]
    have hb : pln.bytwiddle = some bytwiddle_fn.bytwiddle2 := by
      rw [hpln]
      simp [hk]
    have hpw : pw = mktwiddle2 T pln 1 := by
      simp only [awake, call_mktwiddle, hm, Option.map_some', Option.some.injEq,
        Prod.mk.injEq] at hw
      exact hw.1.symm
    subst hpw
    have hbuild := mktwiddle2_build T pln 1 (by decide)
    have hb' : (mktwiddle2 T pln 1).bytwiddle = some bytwiddle_fn.bytwiddle2 := by
      rw [hbuild]
      exact hb
    have ha : (mktwiddle2 T pln 1).apply = pln.apply := by rw [hbuild]
    have hc : (mktwiddle2 T pln 1).cld = pln.cld := by rw [hbuild]
    exact ⟨ha, hc, fun st => call_bytwiddle_some _ st (Or.inr ⟨hb',
      bytwiddle2_some T pln 1 (by decide) (st.rio, st.iio)⟩)⟩

/-- Counterexample to C15 as stated: the kind-2 plan for the 2 by 2 problem
of stride 1 in time decimation, with a child plan that solves the requested
sub-problem and the tables of `mktwiddle2`, turns the buffer holding `1 + 0i`
at offsets 0 to 3 into `2, 1 - i, 0, 1 + i`, while the direct DFT of size 4
of that buffer is `4, 0, 0, 0`. -/
theorem plan_is_not_direct_dft :
    ∃ pln out,
      (mkplan (mksolver 2) (problem.dftw (sample_problem dftwdec.DECDIT 2 2 1))
        (⟨false, fun _ => some dft2_cld⟩ : planner Int Int)).ret = some pln ∧
      solves_dft (root4 2)
        (mkproblem_dft_d (mktensor_1d 2 (2 * 1) (2 * 1)) (mktensor_1d 2 1 1) 0 1 0 1)
        pln.cld.apply ∧
      (mkplan (mksolver 2) (problem.dftw (sample_problem dftwdec.DECDIT 2 2 1))
        (⟨false, fun _ => some dft2_cld⟩ : planner Int Int)).requests =
        [mkproblem_dft_d (mktensor_1d 2 (2 * 1) (2 * 1)) (mktensor_1d 2 1 1) 0 1 0 1] ∧
      call_apply (mktwiddle2 trig4 pln 1) ones_exec = some out ∧
      [(out.rio 0, out.iio 0), (out.rio 1, out.iio 1), (out.rio 2, out.iio 2),
        (out.rio 3, out.iio 3)] = [(2, 0), (1, -1), (0, 0), (1, 1)] ∧
      [direct_dft (root4 4) 4 1 (ones_exec.rio, ones_exec.iio) 0,
        direct_dft (root4 4) 4 1 (ones_exec.rio, ones_exec.iio) 1,
        direct_dft (root4 4) 4 1 (ones_exec.rio, ones_exec.iio) 2,
        direct_dft (root4 4) 4 1 (ones_exec.rio, ones_exec.iio) 3] =
        [(4, 0), (0, 0), (0, 0), (0, 0)] ∧
      (out.rio 0, out.iio 0) ≠ direct_dft (root4 4) 4 1 (ones_exec.rio, ones_exec.iio) 0 :=
  ⟨_, _, rfl, dft2_cld_solves, rfl, rfl, by decide, by decide, by decide⟩

/-- C15, amended. One execution of the plan `mkplan` returns for kind 1 or 2,
made awake, with a child plan that solves the sub-problem requested from the
planner, returns on every buffer and performs one stage of the decomposition,
not the transform of size `r*m`: built from `DECDIT`, the element it leaves
at offset `s*v + m*s*t`, for `v` in `[0, m)` and `t` in `[0, r)`, is the
transform of size `r`, along the stride `m*s`, of the buffers the twiddle
kernel leaves; built from any other decimation mode, its result is the
twiddle kernel applied to the buffers holding these `m` transforms of size
`r` of the buffers given. `w e` is the `e`-th power of the root of unity of
the child's transform. For kind 1 the table facility is assumed to answer
the request with a table of `r*m` pairs. -/
theorem mkplan_executes_one_stage {α β : Type} [Ring β] [Zero α] [Add α] [Sub α] [Mul α]
    (w : Int → α × α) (slv : S) (p : problem_dftw) (plnr : planner α β) (pln pw : P α β)
    (T : trig α) (tw : twiddle_awake_fn α) (ev : List event) (st : exec α)
    (h : (mkplan slv (problem.dftw p) plnr).ret = some pln)
    (hkind : slv.kind = 1 ∨ slv.kind = 2)
    (hfac : slv.kind = 1 → ∃ W, tw 1 none (pln.r * pln.m) pln.r pln.m = some { W := W } ∧
      (W.length : Int) = 2 * (pln.r * pln.m))
    (hw : awake T tw pln 1 = some (pw, ev))
    (hsolve : solves_dft w
      (mkproblem_dft_d (mktensor_1d p.r (p.m * p.s) (p.m * p.s)) (mktensor_1d p.m p.s p.s)
        p.rio p.iio p.rio p.iio)
      pln.cld.apply) :
    (mkplan slv (problem.dftw p) plnr).requests =
      [mkproblem_dft_d (mktensor_1d p.r (p.m * p.s) (p.m * p.s)) (mktensor_1d p.m p.s p.s)
        p.rio p.iio p.rio p.iio] ∧
    ∃ out, call_apply pw st = some out ∧
      (p.dec = dftwdec.DECDIT →
        ∃ y, call_bytwiddle pw st = some y ∧
          ∀ v t : Int, 0 ≤ v → v < p.m → 0 ≤ t → t < p.r →
            (out.rio (p.s * v + p.m * p.s * t), out.iio (p.s * v + p.m * p.s * t)) =
              csum p.r.toNat fun j =>
                cmul (y.rio (p.s * v + p.m * p.s * j), y.iio (p.s * v + p.m * p.s * j))
                  (w (j * t))) ∧
      (p.dec ≠ dftwdec.DECDIT →
        call_bytwiddle pw (call_cld_apply pw st) = some out ∧
          ∀ v t : Int, 0 ≤ v → v < p.m → 0 ≤ t → t < p.r →
            ((call_cld_apply pw st).rio (p.s * v + p.m * p.s * t),
              (call_cld_apply pw st).iio (p.s * v + p.m * p.s * t)) =
              csum p.r.toNat fun j =>
                cmul (st.rio (p.s * v + p.m * p.s * j), st.iio (p.s * v + p.m * p.s * j))
                  (w (j * t))) := by
  obtain ⟨ha, hc, hker⟩ := awake_plan_runs slv _ plnr pln pw T tw ev h hkind hfac hw
  obtain ⟨p', cld, hp, hreq, hpln⟩ := mkplan_ret_some slv _ plnr pln h
  have hp2 : p = p' := problem.dftw.inj hp
  subst hp2
  have happly : pln.apply =
      if p.dec = dftwdec.DECDIT then apply_fn.apply_dit else apply_fn.apply_dif := by
    rw [hpln]
  constructor
  · unfold mkplan
    have hne : ¬ applicable slv (problem.dftw p) plnr = 0 := by
      intro h0
      unfold mkplan at h
      rw [if_pos h0] at h
      simp at h
    rw [if_neg hne]
    simp only [hreq]
  · rw [← hc] at hsolve
    obtain ⟨out, hout, hdit, hdif⟩ :=
      call_apply_stage w pw p.r p.m p.s p.rio p.iio p.rio p.iio hsolve hker st
    refine ⟨out, hout, ?_, ?_⟩
    · intro hdec
      exact hdit (by rw [ha, happly, if_pos hdec])
    · intro hdec
      exact hdif (by rw [ha, happly, if_neg hdec])

/-- An instance of the amended C15 on the 2 by 2 problem of stride 1 in time
decimation, kind 2, with a child plan that solves the requested sub-problem
and buffers holding `(x + 1, x)` at offset `x`: the execution returns, its
result is the two transforms of size 2 of the kernel's output, and it holds
`4 + 2i, 5 - 3i, -2 - 2i, -1 + 5i` at offsets 0 to 3. -/
theorem mkplan_executes_one_stage_witness :
    ∃ pln pw ev out,
      (mkplan (mksolver 2) (problem.dftw (sample_problem dftwdec.DECDIT 2 2 1))
        (⟨false, fun _ => some dft2_cld⟩ : planner Int Int)).ret = some pln ∧
      awake trig4 (spec_twiddle_awake trig4) pln 1 = some (pw, ev) ∧
      solves_dft (root4 2)
        (mkproblem_dft_d (mktensor_1d 2 (2 * 1) (2 * 1)) (mktensor_1d 2 1 1) 0 1 0 1)
        pln.cld.apply ∧
      call_apply pw sample_exec = some out ∧
      (∃ y, call_bytwiddle pw sample_exec = some y ∧
        ∀ v t : Int, 0 ≤ v → v < 2 → 0 ≤ t → t < 2 →
          (out.rio (1 * v + 2 * 1 * t), out.iio (1 * v + 2 * 1 * t)) =
            csum 2 fun j =>
              cmul (y.rio (1 * v + 2 * 1 * j), y.iio (1 * v + 2 * 1 * j)) (root4 2 (j * t))) ∧
      [(out.rio 0, out.iio 0), (out.rio 1, out.iio 1), (out.rio 2, out.iio 2),
        (out.rio 3, out.iio 3)] = [(4, 2), (5, -3), (-2, -2), (-1, 5)] := by
  obtain ⟨pln, pw, ev, hpln, hw, hcld, hval⟩ : ∃ (pln pw : P Int Int) (ev : List event),
      (mkplan (mksolver 2) (problem.dftw (sample_problem dftwdec.DECDIT 2 2 1))
        (⟨false, fun _ => some dft2_cld⟩ : planner Int Int)).ret = some pln ∧
      awake trig4 (spec_twiddle_awake trig4) pln 1 = some (pw, ev) ∧
      pln.cld = dft2_cld ∧
      (call_apply pw sample_exec).map (fun out =>
        [(out.rio 0, out.iio 0), (out.rio 1, out.iio 1), (out.rio 2, out.iio 2),
          (out.rio 3, out.iio 3)]) = some [(4, 2), (5, -3), (-2, -2), (-1, 5)] :=
    ⟨_, _, _, rfl, rfl, rfl, by decide⟩
  have hsolve : solves_dft (root4 2)
      (mkproblem_dft_d (mktensor_1d 2 (2 * 1) (2 * 1)) (mktensor_1d 2 1 1) 0 1 0 1)
      pln.cld.apply := by
    rw [hcld]
    exact dft2_cld_solves
  obtain ⟨-, out, hout, hdit, -⟩ :=
    mkplan_executes_one_stage (root4 2) (mksolver 2) (sample_problem dftwdec.DECDIT 2 2 1) _
      pln pw trig4 (spec_twiddle_awake trig4) ev sample_exec hpln (Or.inr rfl)
      (fun hk => absurd hk (by decide)) hw hsolve
  rw [hout] at hval
  exact ⟨pln, pw, ev, out, hpln, hw, hsolve, hout, hdit rfl, Option.some.inj hval⟩

end DftwDft
